import Mathlib

/-!
Verification of the timeline reconstruction engine of `aw-daily-reporter`
(`timeline/merger.py` and `plugins/processor_afk.py`) against its
natural-language specification.

Instants and durations are modelled as integer nanoseconds, mirroring
the `int64` nanosecond representation of pandas timestamps and timedeltas
that the implementation computes with; a record's `en` field is the
instant `timestamp + duration` (the DataFrame `end` column).  Missing
optional attributes are modelled as `Option.none`.
-/

namespace AwDaily

/-- The 0.1-second sub-segment threshold, in nanoseconds. -/
def subSegMin : ℤ := 100000000

/-- Two minutes (the browser-fallback search slack), in nanoseconds. -/
def twoMin : ℤ := 120000000000

/-- One second, in nanoseconds (readability helper for concrete inputs). -/
def sec (n : ℤ) : ℤ := n * 1000000000

/-- Python `str.lower()` restricted to the character-wise lowering. -/
def pyLower (s : String) : String :=
  ⟨s.data.map Char.toLower⟩

/-- Does the character list start with the given needle? -/
def strStarts : List Char → List Char → Bool
  | _, [] => true
  | [], _ :: _ => false
  | a :: as, b :: bs => a == b && strStarts as bs

/-- Python `needle in hay` on strings: contiguous-substring test. -/
def strHasSub : List Char → List Char → Bool
  | [], needle => needle.isEmpty
  | h :: t, needle => strStarts (h :: t) needle || strHasSub t needle

/-- `any(x in app_name for x in markers)` from `_find_overlays`. -/
def hasAny (appName : String) (markers : List String) : Bool :=
  markers.any (fun m => strHasSub appName.data m.data)

/-- Insert a rational into a sorted duplicate-free list, keeping it sorted
and duplicate-free (models inserting into a Python `set` that is later
passed through `sorted`). -/
def insOrd (x : ℤ) : List ℤ → List ℤ
  | [] => [x]
  | y :: ys => if x < y then x :: y :: ys else if x = y then y :: ys else y :: insOrd x ys

/-- `sorted(set(l))`: the sorted duplicate-free list of the elements. -/
def sortedPts (l : List ℤ) : List ℤ :=
  l.foldr insOrd []

/-- Consecutive pairs of a point list: the sub-intervals of a partition. -/
def consecPairs : List ℤ → List (ℤ × ℤ)
  | [] => []
  | a :: rest =>
    match rest with
    | [] => []
    | b :: _ => (a, b) :: consecPairs rest

/-- A raw ActivityWatch event: start instant, duration (seconds) and the
flattened attribute bag (`e.data`). -/
structure Ev where
  ts : ℤ
  dur : ℤ
  app : Option String := none
  title : Option String := none
  url : Option String := none
  file : Option String := none
  language : Option String := none
  status : Option String := none
  project : Option String := none
deriving DecidableEq

/-- A row of the per-source DataFrame built by `events_to_df`: the event
plus the computed `end` column. -/
structure Rw where
  ts : ℤ
  dur : ℤ
  en : ℤ
  app : Option String := none
  title : Option String := none
  url : Option String := none
  file : Option String := none
  language : Option String := none
  status : Option String := none
  project : Option String := none
deriving DecidableEq

/-- Build the DataFrame row of one event (`end = timestamp + duration`). -/
def evToRw (e : Ev) : Rw :=
  { ts := e.ts, dur := e.dur, en := e.ts + e.dur, app := e.app, title := e.title,
    url := e.url, file := e.file, language := e.language, status := e.status,
    project := e.project }

/-- Sorting key of `sort_values("timestamp")` on source rows. -/
def rwLe (a b : Rw) : Prop := a.ts ≤ b.ts

instance : DecidableRel rwLe := fun a b => inferInstanceAs (Decidable (a.ts ≤ b.ts))

instance : IsTotal Rw rwLe := ⟨fun a b => le_total a.ts b.ts⟩

instance : IsTrans Rw rwLe := ⟨fun _ _ _ h1 h2 => le_trans h1 h2⟩

/-- `events_to_df`: flatten each event onto a row and sort by timestamp. -/
def eventsToDf (l : List Ev) : List Rw :=
  List.insertionSort rwLe (l.map evToRw)

/-- Clamp of the session end used by `_flood_fill_gap`: the end instant is
replaced by `now` when it lies in the future. -/
def clampEnd (et now : ℤ) : ℤ :=
  if now < et then now else et

/-- Tail recursion of `_flood_fill_gap` over the sorted rows: every row's
`end` becomes the next row's start; the last row's `end` becomes the
clamped session end (or keeps its own `end` when none is supplied).
Durations are recomputed as `end - timestamp`. -/
def ffgGo (et : Option ℤ) (now : ℤ) : List Rw → List Rw
  | [] => []
  | r :: rest =>
    match rest with
    | [] =>
      let fe := match et with
        | some t => clampEnd t now
        | none => r.en
      [{ r with en := fe, dur := fe - r.ts }]
    | s :: _ => { r with en := s.ts, dur := s.ts - r.ts } :: ffgGo et now rest

/-- `TimelineMerger._flood_fill_gap`. -/
def floodFillGap (df : List Rw) (et : Option ℤ) (now : ℤ) : List Rw :=
  if df = [] then df else ffgGo et now (List.insertionSort rwLe df)

/-- Kind tag of an overlay record (`ov["type"]`). -/
inductive OvKind
  | vscode
  | web
deriving DecidableEq

/-- An overlay dictionary collected by `_find_overlays`. -/
structure Ov where
  kind : OvKind
  start : ℤ
  stop : ℤ
  data : Rw
deriving DecidableEq

/-- Wrap a matched row as an overlay dictionary. -/
def mkOv (kind : OvKind) (r : Rw) : Ov :=
  { kind := kind, start := r.ts, stop := r.en, data := r }

/-- Marker substrings that make a window app an editor app. -/
def editorMarkers : List String := ["code", "cursor", "antigravity", "windsurf"]

/-- Marker substrings that make a window app a browser app. -/
def browserMarkers : List String := ["chrome", "safari", "arc", "firefox", "edge", "browser"]

/-- Title predicate of the browser fallback: non-empty, longer than two
characters and a substring of the primary window title. -/
def webTitleGood (r : Rw) (title : String) : Bool :=
  let t := r.title.getD ""
  decide (t ≠ "") && decide (2 < t.length) && strHasSub title.data t.data

/-- Editor half of `TimelineMerger._find_overlays`: gated on an editor
marker substring in the (lowercased) primary app name; with a live
interval index (`vIdx`) the overlap test is closed-closed, otherwise the
strict fallback mask is used. -/
def vsOverlays (s e : ℤ) (appName : String) (dfV : List Rw) (vIdx : Bool) : List Ov :=
  if hasAny appName editorMarkers then
    if dfV ≠ [] ∧ vIdx = true then
      (dfV.filter (fun r => decide (r.ts ≤ e) && decide (s ≤ r.en))).map (mkOv OvKind.vscode)
    else if dfV ≠ [] then
      (dfV.filter (fun r => decide (r.ts < e) && decide (s < r.en))).map (mkOv OvKind.vscode)
    else []
  else []

/-- Browser half of `TimelineMerger._find_overlays`: gated on a browser
marker substring; when no record time-overlaps and the primary title is
non-trivial, fall back to a ±2-minute title-substring search and keep the
first hit. -/
def wsOverlays (s e : ℤ) (appName title : String) (dfW : List Rw) (wIdx : Bool) : List Ov :=
  if hasAny appName browserMarkers then
    let matched :=
      if dfW ≠ [] ∧ wIdx = true then
        dfW.filter (fun r => decide (r.ts ≤ e) && decide (s ≤ r.en))
      else if dfW ≠ [] then
        dfW.filter (fun r => decide (r.ts < e) && decide (s < r.en))
      else []
    let matched2 :=
      if matched = [] ∧ title ≠ "" ∧ dfW ≠ [] then
        let sS := s - twoMin
        let sE := e + twoMin
        let candidates :=
          if wIdx then dfW.filter (fun r => decide (r.ts ≤ sE) && decide (sS ≤ r.en))
          else dfW.filter (fun r => decide (sS ≤ r.ts) && decide (r.ts ≤ sE))
        match candidates.find? (fun r => webTitleGood r title) with
        | some r => [r]
        | none => []
      else matched
    matched2.map (mkOv OvKind.web)
  else []

/-- `TimelineMerger._find_overlays`: the editor overlays followed by the
browser overlays. -/
def findOverlays (s e : ℤ) (appName title : String) (dfV : List Rw) (vIdx : Bool)
    (dfW : List Rw) (wIdx : Bool) : List Ov :=
  vsOverlays s e appName dfV vIdx ++ wsOverlays s e appName title dfW wIdx

/-- A merged timeline item (the `TimelineItem` dictionary built by the
merger). -/
structure Item where
  ts : ℤ
  dur : ℤ
  app : String
  title : String
  url : Option String := none
  file : Option String := none
  language : Option String := none
  status : Option String := none
  category : Option String := none
  source : String
  project : Option String := none
  context : List String := []
deriving DecidableEq

/-- Python rendering of an optional value inside an f-string (`None` for a
missing value). -/
def pyNone (o : Option String) : String :=
  o.getD "None"

/-- Fold one active overlay's attributes into a segment, also collecting
any discovered project (the body of the overlay loop of
`_create_segments`). -/
def foldOv (cleanUrl : String → String) : Item × Finset String → Ov → Item × Finset String
  | (it, ps), ov =>
    match ov.kind with
    | OvKind.vscode =>
      let d := ov.data
      let it1 := { it with context := it.context ++
        ["[VSCode] " ++ pyNone d.file ++ " (" ++ pyNone d.language ++ ")"] }
      let it2 := match d.file with
        | some f => if f = "" then it1 else { it1 with file := some f }
        | none => it1
      let it3 := match d.language with
        | some l => { it2 with language := some l }
        | none => it2
      match d.project with
      | some p =>
        if p = "" then (it3, ps)
        else ({ it3 with project := some p, context := it3.context ++ ["Project: " ++ p] },
          insert p ps)
      | none => (it3, ps)
    | OvKind.web =>
      let d := ov.data
      match d.url with
      | some u =>
        if u = "" then (it, ps)
        else
          let cu := cleanUrl u
          ({ it with
              url := some cu,
              context := it.context ++ ["URL: " ++ cu ++ " (" ++ pyNone d.title ++ ")"] }, ps)
      | none => (it, ps)

/-- Fold all active overlays into a segment. -/
def foldOvs (cleanUrl : String → String) (it : Item) (ovs : List Ov) : Item × Finset String :=
  ovs.foldl (foldOv cleanUrl) (it, ∅)

/-- Split points of one primary record: its endpoints plus the endpoints
of every overlay interval clipped to it (kept only when non-degenerate). -/
def splitPtsOf (s e : ℤ) (ovs : List Ov) : List ℤ :=
  sortedPts (ovs.foldr
    (fun ov acc =>
      let a := max s ov.start
      let b := min e ov.stop
      if a < b then a :: b :: acc else acc)
    [s, e])

/-- The per-sub-segment loop of `_create_segments`: sample the midpoint,
collect the overlays whose interval contains it, drop sub-threshold
slivers, fold the active overlays. -/
def segsGo (cleanUrl : String → String) (base : Item) (ovs : List Ov) :
    List (ℤ × ℤ) → List Item × Finset String
  | [] => ([], ∅)
  | (a, b) :: rest =>
    let (tl, ps) := segsGo cleanUrl base ovs rest
    let m := a + (b - a) / 2
    let activeOvs := ovs.filter (fun ov => decide (ov.start ≤ m) && decide (m ≤ ov.stop))
    if b - a < subSegMin then (tl, ps)
    else
      let (item, prs) := foldOvs cleanUrl ({ base with ts := a, dur := b - a, context := [] }) activeOvs
      (item :: tl, prs ∪ ps)

/-- `TimelineMerger._create_segments`. -/
def createSegments (cleanUrl : String → String) (s e : ℤ) (base : Item) (ovs : List Ov) :
    List Item × Finset String :=
  segsGo cleanUrl base ovs (consecPairs (splitPtsOf s e ovs))

/-- Title fallback of `_df_to_items`: an empty title falls back to the
status, then to `"No Title"`. -/
def itemTitle (r : Rw) : String :=
  let t0 := r.title.getD ""
  let t1 := if t0 = "" then (match r.status with | some s => s | none => t0) else t0
  if t1 = "" then "No Title" else t1

/-- `TimelineMerger._df_to_items` on one row. -/
def rowToItem (sourceName : String) (useCategory : Bool) (r : Rw) : Item :=
  { ts := r.ts, dur := r.dur, app := r.app.getD "Unknown", title := itemTitle r,
    url := r.url, file := r.file, language := r.language, status := r.status,
    category := if useCategory then some ("Source: " ++ sourceName) else none,
    source := sourceName, project := r.project, context := [] }

/-- `TimelineMerger._df_to_items`. -/
def dfToItems (df : List Rw) (sourceName : String) (useCategory : Bool) : List Item :=
  df.map (rowToItem sourceName useCategory)

/-- Sorting key of the final `timeline.sort(key=lambda x: x["timestamp"])`. -/
def itemLe (a b : Item) : Prop := a.ts ≤ b.ts

instance : DecidableRel itemLe := fun a b => inferInstanceAs (Decidable (a.ts ≤ b.ts))

instance : IsTotal Item itemLe := ⟨fun a b => le_total a.ts b.ts⟩

instance : IsTrans Item itemLe := ⟨fun _ _ _ h1 h2 => le_trans h1 h2⟩

/-- The event-list map handed to `merge_timeline` (the `web` component is
the concatenation of all `aw-watcher-web*` sources). -/
structure MergeInput where
  window : List Ev := []
  afk : List Ev := []
  vscode : List Ev := []
  web : List Ev := []
deriving DecidableEq

/-- Main loop of `merge_timeline` over the sorted window rows.  For every
primary record, `pd.Interval(start, end, closed="both")` is built before
anything else in `_find_overlays`; it raises a `ValueError` when
`end < start`, which aborts the whole run. -/
def mergeLoop (cleanUrl : String → String) (dfV : List Rw) (vIdx : Bool) (dfW : List Rw)
    (wIdx : Bool) : List Rw → Except String (List Item × Finset String)
  | [] => Except.ok ([], ∅)
  | r :: rest =>
    if r.en < r.ts then Except.error "left side of interval must be <= right side"
    else
      let appName := pyLower (r.app.getD "")
      let base : Item :=
        { ts := r.ts, dur := 0, app := r.app.getD "Unknown", title := r.title.getD "No Title",
          source := "Window" }
      let ovs := findOverlays r.ts r.en appName (r.title.getD "") dfV vIdx dfW wIdx
      let (segs, projs) := createSegments cleanUrl r.ts r.en base ovs
      match mergeLoop cleanUrl dfV vIdx dfW wIdx rest with
      | Except.error m => Except.error m
      | Except.ok (tl, ps) => Except.ok (segs ++ tl, projs ∪ ps)

/-- Row validity used when building an `IntervalIndex`
(`IntervalIndex.from_arrays` requires `left <= right` on every row). -/
def validRw (r : Rw) : Bool :=
  decide (r.ts ≤ r.en)

/-- `TimelineMerger.merge_timeline`: normalize every source, gap-fill the
editor stream, build the overlay indexes, run the main loop, append the
idle-detector rows verbatim and sort.  The second component of the result
is the (always empty) segment list the method returns. -/
def mergeTimeline (cleanUrl : String → String) (inp : MergeInput) (endTime : Option ℤ)
    (now : ℤ) : Except String (List Item × List (ℤ × ℤ) × Finset String) :=
  let dfWd := eventsToDf inp.window
  let dfA := eventsToDf inp.afk
  let dfV0 := eventsToDf inp.vscode
  let dfV := if dfV0 = [] then dfV0 else floodFillGap dfV0 endTime now
  let dfWb := eventsToDf inp.web
  let vIdx := dfV.all validRw
  let wIdx := dfWb.all validRw
  match mergeLoop cleanUrl dfV vIdx dfWb wIdx dfWd with
  | Except.error m => Except.error m
  | Except.ok (tl, projs) =>
    Except.ok (List.insertionSort itemLe (tl ++ dfToItems dfA "AFK" false), [], projs)

/-- A row of the timeline DataFrame handed to `AFKProcessor.process`
(the merged timeline; there is no `end` column on input or output). -/
structure TRow where
  ts : ℤ
  dur : ℤ
  app : Option String := none
  title : Option String := none
  url : Option String := none
  file : Option String := none
  language : Option String := none
  status : Option String := none
  category : Option String := none
  project : Option String := none
  source : Option String := none
deriving DecidableEq

/-- A timeline row together with the computed `end` column
(`end = timestamp + duration`, added at the top of `process`). -/
structure FRow where
  ts : ℤ
  dur : ℤ
  en : ℤ
  app : Option String := none
  title : Option String := none
  url : Option String := none
  file : Option String := none
  language : Option String := none
  status : Option String := none
  category : Option String := none
  project : Option String := none
  source : Option String := none
deriving DecidableEq

/-- Add the `end` column to a timeline row. -/
def addEn (r : TRow) : FRow :=
  { ts := r.ts, dur := r.dur, en := r.ts + r.dur, app := r.app, title := r.title,
    url := r.url, file := r.file, language := r.language, status := r.status,
    category := r.category, project := r.project, source := r.source }

/-- Drop the `end` column (`new_row.pop("end", None)`). -/
def dropEn (f : FRow) : TRow :=
  { ts := f.ts, dur := f.dur, app := f.app, title := f.title, url := f.url,
    file := f.file, language := f.language, status := f.status,
    category := f.category, project := f.project, source := f.source }

/-- Sorting key of `sort_values("timestamp")` on `end`-carrying rows. -/
def frLe (a b : FRow) : Prop := a.ts ≤ b.ts

instance : DecidableRel frLe := fun a b => inferInstanceAs (Decidable (a.ts ≤ b.ts))

instance : IsTotal FRow frLe := ⟨fun a b => le_total a.ts b.ts⟩

instance : IsTrans FRow frLe := ⟨fun _ _ _ h1 h2 => le_trans h1 h2⟩

/-- Is the row an idle-detector row (`source == "AFK"`)? -/
def isAfkSrc (f : FRow) : Bool :=
  f.source == some "AFK"

/-- Is the row an active idle-detector row (`source == "AFK"` and
`status == "not-afk"`)? -/
def isNotAfkRow (f : FRow) : Bool :=
  isAfkSrc f && f.status == some "not-afk"

/-- Overlap-flattening loop of `process`: a row whose start precedes the
previous row's (original) `end` has its start advanced to that `end`; the
`end` values themselves are never rewritten. -/
def flattenGo (prevEnd : ℤ) : List FRow → List FRow
  | [] => []
  | r :: rest =>
    (if r.ts < prevEnd then { r with ts := prevEnd } else r) :: flattenGo r.en rest

/-- Flattening over a whole (sorted) row list; the first row is untouched. -/
def flattenAll : List FRow → List FRow
  | [] => []
  | r :: rest => r :: flattenGo r.en rest

/-- Recompute a row's duration as `end - timestamp`. -/
def recomputeF (f : FRow) : FRow :=
  { f with dur := f.en - f.ts }

/-- Post-processing of the flattened rows: recompute durations and keep
only rows with positive duration. -/
def flatPost (l : List FRow) : List FRow :=
  (l.map recomputeF).filter (fun f => decide (0 < f.dur))

/-- Sort, flatten, recompute durations (`end - timestamp`) and keep only
rows with positive duration (the `df_active` reconstruction of
`process`). -/
def flattenActive (rows : List FRow) : List FRow :=
  flatPost (flattenAll (List.insertionSort frLe rows))

/-- Sweep-merge of the sorted active idle rows: a record starting at or
before the current range's end extends it to the larger end, any other
record starts a new range. -/
def sweepAR (cur : ℤ × ℤ) : List (ℤ × ℤ) → List (ℤ × ℤ)
  | [] => [cur]
  | (s, e) :: rest =>
    if s ≤ cur.2 then sweepAR (cur.1, max cur.2 e) rest else cur :: sweepAR (s, e) rest

/-- Active ranges computed from the `not-afk` idle rows (filter, sort by
start, sweep-merge). -/
def activeRangesOf (notAfk : List FRow) : List (ℤ × ℤ) :=
  match (List.insertionSort frLe notAfk).map (fun f => (f.ts, f.en)) with
  | [] => []
  | p :: rest => sweepAR p rest

/-- Minimum of the `timestamp` column (only used on non-empty frames). -/
def minTs : List FRow → ℤ
  | [] => 0
  | r :: rest => rest.foldl (fun m q => min m q.ts) r.ts

/-- Maximum of the `end` column (only used on non-empty frames). -/
def maxEn : List FRow → ℤ
  | [] => 0
  | r :: rest => rest.foldl (fun m q => max m q.en) r.en

/-- Content rows of the input timeline: everything not sourced from the
idle detector. -/
def contentOf (df : List TRow) : List TRow :=
  df.filter (fun r => !isAfkSrc (addEn r))

/-- The active ranges `process` uses: ranges swept from the `not-afk`
rows, or — when there are none — a single range spanning the flattened
content (empty when the flattened content is empty too). -/
def afkRangesOf (df : List TRow) : List (ℤ × ℤ) :=
  let withEn := df.map addEn
  let notAfk := withEn.filter isNotAfkRow
  if notAfk ≠ [] then activeRangesOf notAfk
  else
    let flat := flattenActive ((contentOf df).map addEn)
    if flat ≠ [] then [(minTs flat, maxEn flat)] else []

/-- Sorting key on ranges (`sorted(active_ranges, key=lambda x: x[0])`). -/
def prLe (a b : ℤ × ℤ) : Prop := a.1 ≤ b.1

instance : DecidableRel prLe := fun a b => inferInstanceAs (Decidable (a.1 ≤ b.1))

instance : IsTotal (ℤ × ℤ) prLe := ⟨fun a b => le_total a.1 b.1⟩

instance : IsTrans (ℤ × ℤ) prLe := ⟨fun _ _ _ h1 h2 => le_trans h1 h2⟩

/-- Last range (of a start-sorted list) whose start is at most `t`; the
`bisect_right(range_starts, t) - 1` lookup. -/
def lastLE : List (ℤ × ℤ) → ℤ → Option (ℤ × ℤ)
  | [], _ => none
  | (s, e) :: rest, t =>
    if s ≤ t then
      match lastLE rest t with
      | some r => some r
      | none => some (s, e)
    else none

/-- `is_in_active`: binary-search the candidate range, then test
half-open containment `start <= t < end`. -/
def isInActive (sr : List (ℤ × ℤ)) (t : ℤ) : Bool :=
  match lastLE sr t with
  | some (s, e) => decide (s ≤ t) && decide (t < e)
  | none => false

/-- Copy of a flattened row re-timed to one retained sub-interval (the
`end` column is popped). -/
def emitRow (f : FRow) (a d : ℤ) : TRow :=
  { ts := a, dur := d, app := f.app, title := f.title, url := f.url, file := f.file,
    language := f.language, status := f.status, category := f.category,
    project := f.project, source := f.source }

/-- Per-sub-interval body of the segment loop of `process`: drop
sub-threshold intervals, drop intervals whose midpoint is outside every
active range, otherwise emit one copy of every flattened row whose span
contains the midpoint. -/
def emitStep (flat : List FRow) (sr : List (ℤ × ℤ)) : ℤ × ℤ → List TRow
  | (a, b) =>
    let d := b - a
    if d < subSegMin then []
    else
      let m := a + d / 2
      if isInActive sr m then
        flat.filterMap (fun f =>
          if decide (f.ts ≤ m) && decide (m < f.en) then some (emitRow f a d) else none)
      else []

/-- The whole segment loop of `process`. -/
def emitAll (flat : List FRow) (sr : List (ℤ × ℤ)) : List (ℤ × ℤ) → List TRow
  | [] => []
  | p :: rest => emitStep flat sr p ++ emitAll flat sr rest

/-- Split points of `process`: endpoints of the flattened rows plus
endpoints of the active ranges. -/
def afkPts (flat : List FRow) (ranges : List (ℤ × ℤ)) : List ℤ :=
  sortedPts (flat.foldr (fun f acc => f.ts :: f.en :: acc)
    (ranges.foldr (fun p acc => p.1 :: p.2 :: acc) []))

/-- Default `SYSTEM_APPS` suppression set. -/
def defaultSysApps : List String := ["loginwindow", "lockscreen", "screensaverengine"]

/-- Does a row survive the system-app suppression (its lowercased app is
not in the set; rows with no app value survive)? -/
def sysKeep (sysApps : List String) (r : TRow) : Bool :=
  match r.app with
  | some a => !(sysApps.contains (pyLower a))
  | none => true

/-- Final system-app suppression. -/
def sysFilter (rows : List TRow) (sysApps : List String) : List TRow :=
  rows.filter (sysKeep sysApps)

/-- The AFK filter proper, with the active ranges and system-app set as
explicit inputs: flatten the content rows, re-split at all boundary
points, keep midpoint-active sub-intervals, copy the covering rows onto
them, and suppress system apps (returning the empty frame when nothing
was emitted). -/
def afkCore (content : List TRow) (ranges : List (ℤ × ℤ)) (sysApps : List String) :
    List TRow :=
  let flat := flattenActive (content.map addEn)
  let sr := List.insertionSort prLe ranges
  let emitted := emitAll flat sr (consecPairs (afkPts flat ranges))
  if emitted = [] then [] else sysFilter emitted sysApps

/-- The effective system-app set: the configured list (lowercased) when
non-empty, the default set otherwise. -/
def sysAppsOf (cfgApps : List String) : List String :=
  if cfgApps ≠ [] then cfgApps.map pyLower else defaultSysApps

/-- `AFKProcessor.process`: the configured system-app list (lowercased)
replaces the default set when non-empty; the active ranges are derived
from the input's own idle rows; the content rows are filtered through
`afkCore`. -/
def afkProcess (df : List TRow) (cfgApps : List String) : List TRow :=
  if df = [] then []
  else afkCore (contentOf df) (afkRangesOf df) (sysAppsOf cfgApps)

/-- Sum of the `duration` column. -/
def durSum (rows : List TRow) : ℤ :=
  (rows.map (fun r => r.dur)).sum

/-- Sum of the range lengths. -/
def rangeSum (ranges : List (ℤ × ℤ)) : ℤ :=
  (ranges.map (fun p => p.2 - p.1)).sum

/-- Overlay disjointness of two `end`-carrying rows. -/
def disjF (a b : FRow) : Prop := a.en ≤ b.ts ∨ b.en ≤ a.ts

instance : DecidableRel disjF := fun a b =>
  inferInstanceAs (Decidable (a.en ≤ b.ts ∨ b.en ≤ a.ts))

/-- Overlay disjointness of two emitted timeline rows. -/
def disjT (a b : TRow) : Prop := a.ts + a.dur ≤ b.ts ∨ b.ts + b.dur ≤ a.ts

instance : DecidableRel disjT := fun a b =>
  inferInstanceAs (Decidable (a.ts + a.dur ≤ b.ts ∨ b.ts + b.dur ≤ a.ts))

/-! Concrete inputs used by the per-claim counterexamples and witnesses. -/

/-- C1 counterexample input: a lone idle-detector event of 0.05 s. -/
def c1In : MergeInput := { afk := [{ ts := 0, dur := sec 1 / 20, status := some "afk" }] }

/-- The timeline item the merger emits for the 0.05 s idle event. -/
def c1Item : Item :=
  { ts := 0, dur := sec 1 / 20, app := "Unknown", title := "afk", status := some "afk",
    source := "AFK" }

/-- C1 witness input: a lone one-second window event. -/
def c1WIn : MergeInput := { window := [{ ts := 0, dur := sec 1, app := some "textedit" }] }

/-- The window segment the merger emits for `c1WIn`. -/
def c1WItem : Item :=
  { ts := 0, dur := sec 1, app := "textedit", title := "No Title", source := "Window" }

/-- C2 counterexample rows: a long segment with two short ones inside. -/
def c2A : TRow := { ts := 0, dur := sec 100, app := some "x", source := some "Window" }

/-- Second C2 content row (overlapped, killed by flattening). -/
def c2B : TRow := { ts := sec 50, dur := sec 10, app := some "x", source := some "Window" }

/-- Third C2 content row (survives flattening inside `c2A`). -/
def c2C : TRow := { ts := sec 70, dur := sec 10, app := some "x", source := some "Window" }

/-- C2 idle row: the user is active over the whole 100 s. -/
def c2NotAfk : TRow :=
  { ts := 0, dur := sec 100, status := some "not-afk", source := some "AFK" }

/-- C2 counterexample timeline. -/
def c2In : List TRow := [c2A, c2B, c2C, c2NotAfk]

/-- C2 witness timeline: one content row fully covered by one idle row. -/
def c2WIn : List TRow :=
  [{ ts := 0, dur := sec 10, app := some "x", source := some "Window" },
   { ts := 0, dur := sec 10, status := some "not-afk", source := some "AFK" }]

/-- C3 counterexample input: a valid window event plus an inverted
(negative-duration) editor event. -/
def c3In : MergeInput :=
  { window := [{ ts := 0, dur := sec 1, app := some "textedit" }],
    vscode := [{ ts := 0, dur := -(sec 1) }] }

/-- The window segment the merger emits for `c3In`. -/
def c3Item : Item :=
  { ts := 0, dur := sec 1, app := "textedit", title := "No Title", source := "Window" }

/-- C4 counterexample input: a non-editor window event together with a
fully overlapping editor event carrying file and project attributes. -/
def c4In : MergeInput :=
  { window := [{ ts := 0, dur := sec 1, app := some "textedit", title := some "t" }],
    vscode := [{ ts := 0, dur := sec 1, file := some "a.py", project := some "p" }] }

/-- The (unattributed) segment the merger emits for `c4In`. -/
def c4Item : Item :=
  { ts := 0, dur := sec 1, app := "textedit", title := "t", source := "Window" }

/-- C4 witness overlay row. -/
def c4WRow : Rw := { ts := sec 2, dur := sec 3, en := sec 5 }

/-- C5 witness editor stream (the spec's 10:00–10:05 / 10:20–10:25
scenario, re-based to 0). -/
def c5WIn : List Rw :=
  [{ ts := 0, dur := sec 300, en := sec 300, file := some "file1.py" },
   { ts := sec 1200, dur := sec 300, en := sec 1500, file := some "file2.py" }]

/-- C7 witness row: a lone content segment. -/
def c7WRow : TRow := { ts := 0, dur := sec 10, app := some "x", source := some "Window" }

/-- C7 witness timeline for the fallback-range part. -/
def c7WIn : List TRow :=
  [c7WRow, { ts := sec 2, dur := sec 5, app := some "y", source := some "Window" }]

/-- C8 counterexample content rows (same shape as the C2 rows). -/
def c8A : TRow := { ts := 0, dur := sec 100, app := some "x", source := some "Window" }

/-- Second C8 content row. -/
def c8B : TRow := { ts := sec 50, dur := sec 10, app := some "x", source := some "Window" }

/-- Third C8 content row. -/
def c8C : TRow := { ts := sec 70, dur := sec 10, app := some "x", source := some "Window" }

/-- C8 counterexample content timeline. -/
def c8In : List TRow := [c8A, c8B, c8C]

/-- C8 active ranges (the user is active over the whole 100 s). -/
def c8R : List (ℤ × ℤ) := [(0, sec 100)]

/-- C8 witness content timeline: a single segment, whose filtered image
is disjoint. -/
def c8WIn : List TRow := [{ ts := 0, dur := sec 100, app := some "x" }]

/-- C9 witness browser row: starts 100 s after the window interval ends
but within the ±2 min slack, with a title contained in the window
title. -/
def c9WRow : Rw := { ts := sec 100, dur := sec 20, en := sec 120, title := some "hello" }

/-!  Helper lemmas about the merger. -/

/-- Folding one overlay never changes a segment's duration, source tag or
start. -/
theorem foldOv_keep (cu : String → String) (it : Item) (ps : Finset String) (ov : Ov) :
    ((foldOv cu (it, ps) ov).1).dur = it.dur ∧ ((foldOv cu (it, ps) ov).1).source = it.source ∧
    ((foldOv cu (it, ps) ov).1).ts = it.ts := by
  obtain ⟨kind, start, stop, data⟩ := ov
  cases kind <;> dsimp only [foldOv]
  · cases data.file <;> cases data.language <;> cases data.project <;> simp <;>
      split_ifs <;> simp
  · cases data.url <;> simp
    split <;> simp

/-- Folding a list of overlays never changes a segment's duration, source
tag or start (generalized over the accumulator). -/
theorem foldOvl_keep (cu : String → String) :
    ∀ (ovs : List Ov) (it : Item) (ps : Finset String),
      ((ovs.foldl (foldOv cu) (it, ps)).1).dur = it.dur ∧
      ((ovs.foldl (foldOv cu) (it, ps)).1).source = it.source ∧
      ((ovs.foldl (foldOv cu) (it, ps)).1).ts = it.ts := by
  intro ovs
  induction ovs with
  | nil => intro it ps; exact ⟨rfl, rfl, rfl⟩
  | cons ov rest ih =>
    intro it ps
    have hk := foldOv_keep cu it ps ov
    rcases hfo : foldOv cu (it, ps) ov with ⟨it2, ps2⟩
    rw [hfo] at hk
    rw [List.foldl_cons, hfo]
    exact ⟨(ih it2 ps2).1.trans hk.1, (ih it2 ps2).2.1.trans hk.2.1,
      (ih it2 ps2).2.2.trans hk.2.2⟩

/-- Full-overlay-fold version of the preservation lemma. -/
theorem foldOvs_keep (cu : String → String) (it : Item) (ovs : List Ov) :
    ((foldOvs cu it ovs).1).dur = it.dur ∧ ((foldOvs cu it ovs).1).source = it.source ∧
    ((foldOvs cu it ovs).1).ts = it.ts :=
  foldOvl_keep cu ovs it ∅

/-- Every item emitted by the sub-segment loop has duration at least the
0.1 s threshold and carries the base item's source tag. -/
theorem segsGo_emitted (cu : String → String) (base : Item) (ovs : List Ov) :
    ∀ (pairs : List (ℤ × ℤ)) (it : Item), it ∈ (segsGo cu base ovs pairs).1 →
      subSegMin ≤ it.dur ∧ it.source = base.source := by
  intro pairs
  induction pairs with
  | nil => intro it h; simp [segsGo] at h
  | cons p rest ih =>
    intro it h
    obtain ⟨a, b⟩ := p
    rw [segsGo] at h
    rcases hsg : segsGo cu base ovs rest with ⟨tl, ps⟩
    rw [hsg] at h
    dsimp only at h
    by_cases hd : b - a < subSegMin
    · rw [if_pos hd] at h
      exact ih it (by rw [hsg]; exact h)
    · rw [if_neg hd] at h
      dsimp only at h
      rcases List.mem_cons.mp h with rfl | h2
      · constructor
        · rw [(foldOvs_keep cu _ _).1]
          show subSegMin ≤ b - a
          omega
        · rw [(foldOvs_keep cu _ _).2.1]
      · exact ih it (by rw [hsg]; exact h2)

/-- Every item created by `_create_segments` has duration at least the
0.1 s threshold and carries the base item's source tag. -/
theorem createSegments_emitted (cu : String → String) (s e : ℤ) (base : Item) (ovs : List Ov)
    (it : Item) (h : it ∈ (createSegments cu s e base ovs).1) :
    subSegMin ≤ it.dur ∧ it.source = base.source :=
  segsGo_emitted cu base ovs _ it h

/-- Every item produced by the main merge loop has duration at least the
0.1 s threshold and is tagged with the primary source name. -/
theorem mergeLoop_emitted (cu : String → String) (dfV : List Rw) (vIdx : Bool) (dfW : List Rw)
    (wIdx : Bool) :
    ∀ (rows : List Rw) (tl : List Item) (ps : Finset String),
      mergeLoop cu dfV vIdx dfW wIdx rows = Except.ok (tl, ps) →
      ∀ it ∈ tl, subSegMin ≤ it.dur ∧ it.source = "Window" := by
  intro rows
  induction rows with
  | nil =>
    intro tl ps h it hit
    rw [mergeLoop] at h
    obtain ⟨rfl, rfl⟩ : tl = [] ∧ ps = ∅ := by
      injection h with h2
      injection h2 with h3 h4
      exact ⟨h3.symm, h4.symm⟩
    simp at hit
  | cons r rest ih =>
    intro tl ps h it hit
    rw [mergeLoop] at h
    by_cases hv : r.en < r.ts
    · rw [if_pos hv] at h; cases h
    · rw [if_neg hv] at h
      rcases hrec : mergeLoop cu dfV vIdx dfW wIdx rest with m | pr
      · rw [hrec] at h; cases h
      · obtain ⟨tl2, ps2⟩ := pr
        rw [hrec] at h
        dsimp only at h
        obtain ⟨htl, _⟩ : (createSegments cu r.ts r.en
            { ts := r.ts, dur := 0, app := r.app.getD "Unknown",
              title := r.title.getD "No Title", source := "Window" }
            (findOverlays r.ts r.en (pyLower (r.app.getD "")) (r.title.getD "") dfV vIdx dfW
              wIdx)).1 ++ tl2 = tl ∧ _ ∪ ps2 = ps := by
          injection h with h2
          injection h2 with h3 h4
          exact ⟨h3, h4⟩
        rw [← htl] at hit
        rcases List.mem_append.mp hit with hseg | htail
        · exact createSegments_emitted cu r.ts r.en _ _ it hseg
        · exact ih tl2 ps2 hrec it htail

/-- Idle rows converted by `_df_to_items` carry the idle source tag. -/
theorem dfToItems_source (df : List Rw) (nm : String) (uc : Bool) (it : Item)
    (h : it ∈ dfToItems df nm uc) : it.source = nm := by
  rcases List.mem_map.mp h with ⟨r, _, rfl⟩
  rfl

/-- C1, amended.  Sub-segments of a primary (window) record shorter than
0.1 s are discarded, so every segment of the merged timeline whose source
tag is the primary `"Window"` source has duration at least 0.1 s.  The
idle-detector entries appended at the end are copied verbatim and are not
subject to the threshold (see the counterexample). -/
theorem c1_window_segments_min_duration (cu : String → String) (inp : MergeInput)
    (et : Option ℤ) (now : ℤ) (tl : List Item) (rest : List (ℤ × ℤ) × Finset String)
    (h : mergeTimeline cu inp et now = Except.ok (tl, rest)) :
    ∀ it ∈ tl, it.source = "Window" → subSegMin ≤ it.dur := by
  intro it hit hsrc
  rw [mergeTimeline] at h
  rcases hloop : mergeLoop cu (if eventsToDf inp.vscode = [] then eventsToDf inp.vscode
      else floodFillGap (eventsToDf inp.vscode) et now)
      ((if eventsToDf inp.vscode = [] then eventsToDf inp.vscode
      else floodFillGap (eventsToDf inp.vscode) et now).all validRw)
      (eventsToDf inp.web) ((eventsToDf inp.web).all validRw)
      (eventsToDf inp.window) with m | pr
  · rw [hloop] at h; cases h
  · obtain ⟨tlm, projs⟩ := pr
    rw [hloop] at h
    dsimp only at h
    obtain ⟨htl, -⟩ : List.insertionSort itemLe (tlm ++ dfToItems (eventsToDf inp.afk) "AFK"
        false) = tl ∧ (([], projs) : List (ℤ × ℤ) × Finset String) = rest := by
      injection h with h2
      injection h2 with h3 h4
      exact ⟨h3, h4⟩
    rw [← htl] at hit
    have hmem := (List.perm_insertionSort itemLe _).mem_iff.mp hit
    rcases List.mem_append.mp hmem with hm | ha
    · exact (mergeLoop_emitted cu _ _ _ _ _ tlm projs hloop it hm).1
    · have := dfToItems_source _ _ _ _ ha
      rw [hsrc] at this
      simp at this

/-- C1 witness: the lone one-second window event of `c1WIn` yields one
window segment, and the theorem bounds its duration. -/
theorem c1_window_segments_min_duration_witness : subSegMin ≤ c1WItem.dur :=
  c1_window_segments_min_duration (fun u => u) c1WIn none 0 [c1WItem] ([], ∅) (by rfl)
    c1WItem (by simp) (by rfl)

/-- C1 counterexample: on `c1In` the merger emits the 0.05 s idle entry
verbatim, so the returned timeline contains a segment of duration
strictly below the 0.1 s threshold. -/
theorem c1_counterexample :
    mergeTimeline (fun u => u) c1In none 0 = Except.ok ([c1Item], [], ∅) ∧
      c1Item.dur < subSegMin := by
  exact ⟨by rfl, by decide⟩

/-- The main merge loop fails if and only if some primary row has an
inverted interval. -/
theorem mergeLoop_error_iff (cu : String → String) (dfV : List Rw) (vIdx : Bool)
    (dfW : List Rw) (wIdx : Bool) :
    ∀ rows : List Rw, (∃ m, mergeLoop cu dfV vIdx dfW wIdx rows = Except.error m) ↔
      ∃ r ∈ rows, r.en < r.ts := by
  intro rows
  induction rows with
  | nil => simp [mergeLoop]
  | cons r rest ih =>
    rw [mergeLoop]
    by_cases hv : r.en < r.ts
    · rw [if_pos hv]
      constructor
      · intro _; exact ⟨r, List.mem_cons_self r rest, hv⟩
      · intro _; exact ⟨_, rfl⟩
    · rw [if_neg hv]
      rcases hrec : mergeLoop cu dfV vIdx dfW wIdx rest with m | pr
      · simp only [hrec]
        constructor
        · intro _
          rcases ih.mp ⟨m, hrec⟩ with ⟨q, hq, hqe⟩
          exact ⟨q, List.mem_cons_of_mem r hq, hqe⟩
        · intro _; exact ⟨m, rfl⟩
      · obtain ⟨tl2, ps2⟩ := pr
        simp only [hrec]
        constructor
        · rintro ⟨m, hm⟩; cases hm
        · rintro ⟨q, hq, hqe⟩
          rcases List.mem_cons.mp hq with rfl | hq2
          · exact absurd hqe hv
          · rcases ih.mpr ⟨q, hq2, hqe⟩ with ⟨m, hm⟩
            rw [hm] at hrec; cases hrec

/-- C3, amended.  An inverted interval (`end < start`, i.e. negative
duration) on a primary (window) record is fatal: building the per-record
query interval raises and `merge_timeline` returns an error.  An inverted
interval on an overlay record is not fatal: the failed interval-index
build is caught and logged, and the run proceeds on the linear fallback
path (see the counterexample). -/
theorem c3_error_iff_inverted_window (cu : String → String) (inp : MergeInput)
    (et : Option ℤ) (now : ℤ) :
    (∃ m, mergeTimeline cu inp et now = Except.error m) ↔
      ∃ ev ∈ inp.window, ev.dur < 0 := by
  rw [mergeTimeline]
  rcases hloop : mergeLoop cu (if eventsToDf inp.vscode = [] then eventsToDf inp.vscode
      else floodFillGap (eventsToDf inp.vscode) et now)
      ((if eventsToDf inp.vscode = [] then eventsToDf inp.vscode
      else floodFillGap (eventsToDf inp.vscode) et now).all validRw)
      (eventsToDf inp.web) ((eventsToDf inp.web).all validRw)
      (eventsToDf inp.window) with m | pr
  · simp only [hloop]
    have h1 := (mergeLoop_error_iff cu _ _ _ _ (eventsToDf inp.window)).mp ⟨m, hloop⟩
    constructor
    · intro _
      rcases h1 with ⟨r, hr, hre⟩
      rcases List.mem_map.mp ((List.perm_insertionSort rwLe _).mem_iff.mp hr) with
        ⟨ev, hev, rfl⟩
      refine ⟨ev, hev, ?_⟩
      have : ev.ts + ev.dur < ev.ts := hre
      omega
    · intro _; exact ⟨m, rfl⟩
  · obtain ⟨tlm, projs⟩ := pr
    simp only [hloop]
    constructor
    · rintro ⟨m, hm⟩; cases hm
    · rintro ⟨ev, hev, hdur⟩
      have hr : evToRw ev ∈ eventsToDf inp.window := by
        rw [eventsToDf, (List.perm_insertionSort rwLe _).mem_iff]
        exact List.mem_map.mpr ⟨ev, hev, rfl⟩
      have hinv : (evToRw ev).en < (evToRw ev).ts := by
        show ev.ts + ev.dur < ev.ts
        omega
      rcases (mergeLoop_error_iff cu _ _ _ _ (eventsToDf inp.window)).mpr
        ⟨evToRw ev, hr, hinv⟩ with ⟨m, hm⟩
      rw [hm] at hloop; cases hloop

/-- C3 counterexample: `c3In` carries an inverted editor event, yet the
merge completes normally (the failed index build only downgrades the
overlay lookup to the linear path). -/
theorem c3_counterexample :
    (∃ ev ∈ c3In.vscode, ev.dur < 0) ∧
      mergeTimeline (fun u => u) c3In none 0 = Except.ok ([c3Item], [], ∅) := by
  constructor
  · refine ⟨_, List.mem_singleton_self _, ?_⟩
    decide
  · rfl

/-! Helper lemmas about the gap filler. -/

/-- Gap filling never changes the `timestamp` column. -/
theorem ffgGo_ts (et : Option ℤ) (now : ℤ) :
    ∀ l : List Rw, (ffgGo et now l).map Rw.ts = l.map Rw.ts := by
  intro l
  induction l with
  | nil => rfl
  | cons r rest ih =>
    cases rest with
    | nil => rfl
    | cons s rest2 =>
      rw [ffgGo]
      rw [List.map_cons, List.map_cons]
      exact congrArg (List.cons r.ts) ih

/-- The gap-filled list of a non-empty list is a cons whose head keeps the
original head's timestamp. -/
theorem ffgGo_cons (et : Option ℤ) (now : ℤ) (s : Rw) (rest2 : List Rw) :
    ∃ q rest3, ffgGo et now (s :: rest2) = q :: rest3 ∧ q.ts = s.ts := by
  cases rest2 with
  | nil => exact ⟨_, _, rfl, rfl⟩
  | cons u rest3 => exact ⟨_, _, rfl, rfl⟩

/-- After gap filling, every row's `end` equals the next row's start. -/
theorem ffgGo_chain (et : Option ℤ) (now : ℤ) :
    ∀ l : List Rw, List.Chain' (fun a b => a.en = b.ts) (ffgGo et now l) := by
  intro l
  induction l with
  | nil => exact List.chain'_nil
  | cons r rest ih =>
    cases rest with
    | nil => simp [ffgGo]
    | cons s rest2 =>
      rw [ffgGo]
      rcases ffgGo_cons et now s rest2 with ⟨q, rest3, heq, hts⟩
      rw [heq]
      rw [heq] at ih
      exact List.Chain'.cons (by dsimp only; omega) ih

/-- After gap filling with a session end, the last row's `end` is the
clamped session end. -/
theorem ffgGo_last (t now : ℤ) :
    ∀ l : List Rw, ∀ r : Rw, (ffgGo (some t) now l).getLast? = some r →
      r.en = clampEnd t now := by
  intro l
  induction l with
  | nil => intro r h; cases h
  | cons r0 rest ih =>
    cases rest with
    | nil =>
      intro r h
      rw [ffgGo] at h
      rw [List.getLast?_singleton] at h
      injection h with h2
      rw [← h2]
    | cons s rest2 =>
      intro r h
      rw [ffgGo] at h
      rcases ffgGo_cons (some t) now s rest2 with ⟨q, rest3, heq, -⟩
      rw [heq] at h
      rw [List.getLast?_cons_cons] at h
      exact ih r (by rw [heq]; exact h)

/-- After gap filling, every row's duration is `end - timestamp`. -/
theorem ffgGo_dur (et : Option ℤ) (now : ℤ) :
    ∀ l : List Rw, ∀ r ∈ ffgGo et now l, r.dur = r.en - r.ts := by
  intro l
  induction l with
  | nil => intro r h; cases h
  | cons r0 rest ih =>
    cases rest with
    | nil =>
      intro r h
      rcases List.mem_singleton.mp h with rfl
      rfl
    | cons s rest2 =>
      intro r h
      rw [ffgGo] at h
      rcases List.mem_cons.mp h with rfl | h2
      · rfl
      · exact ih r h2

/-- C5, confirmed.  On a non-empty, start-sorted editor event list with a
supplied session end, the gap filler keeps every start, rewrites every
row's `end` to the next row's start, rewrites the last row's `end` to the
session end clamped to "now" when it lies in the future, and recomputes
every duration as `end - timestamp`. -/
theorem c5_gap_filler (df : List Rw) (et now : ℤ) (hne : df ≠ [])
    (hs : List.Sorted rwLe df) :
    (floodFillGap df (some et) now).map Rw.ts = df.map Rw.ts ∧
    List.Chain' (fun a b => a.en = b.ts) (floodFillGap df (some et) now) ∧
    (∀ r, (floodFillGap df (some et) now).getLast? = some r → r.en = clampEnd et now) ∧
    ∀ r ∈ floodFillGap df (some et) now, r.dur = r.en - r.ts := by
  rw [floodFillGap, if_neg hne, hs.insertionSort_eq]
  exact ⟨ffgGo_ts _ _ df, ffgGo_chain _ _ df, ffgGo_last et now df, ffgGo_dur _ _ df⟩

/-- C5 witness: the spec's gap scenario (events 0–300 s and 1200–1500 s,
session end 3600 s, now 7200 s). -/
theorem c5_gap_filler_witness :
    (floodFillGap c5WIn (some (sec 3600)) (sec 7200)).map Rw.ts = c5WIn.map Rw.ts ∧
    List.Chain' (fun a b => a.en = b.ts) (floodFillGap c5WIn (some (sec 3600)) (sec 7200)) ∧
    (∀ r, (floodFillGap c5WIn (some (sec 3600)) (sec 7200)).getLast? = some r →
      r.en = clampEnd (sec 3600) (sec 7200)) ∧
    ∀ r ∈ floodFillGap c5WIn (some (sec 3600)) (sec 7200), r.dur = r.en - r.ts :=
  c5_gap_filler c5WIn (sec 3600) (sec 7200) (by decide) (by decide)

/-! Helper lemmas about the active-range sweep. -/

/-- Invariant of the sweep-merge: on a start-sorted input whose starts
dominate the current range's start, the produced ranges are sorted by
start and strictly separated, and all their starts dominate the current
range's start. -/
theorem sweepAR_inv :
    ∀ (l : List (ℤ × ℤ)) (cur : ℤ × ℤ),
      List.Sorted (fun a b : ℤ × ℤ => a.1 ≤ b.1) l → (∀ p ∈ l, cur.1 ≤ p.1) →
      (sweepAR cur l).Pairwise (fun a b => a.1 ≤ b.1 ∧ a.2 < b.1) ∧
      ∀ q ∈ sweepAR cur l, cur.1 ≤ q.1 := by
  intro l
  induction l with
  | nil =>
    intro cur _ _
    constructor
    · exact List.pairwise_singleton _ _
    · intro q hq
      rcases List.mem_singleton.mp hq with rfl
      exact le_refl _
  | cons p rest ih =>
    intro cur hl hcur
    obtain ⟨s, e⟩ := p
    have hs : cur.1 ≤ s := hcur (s, e) (List.mem_cons_self _ _)
    have hrest : ∀ q ∈ rest, s ≤ q.1 := fun q hq => List.rel_of_sorted_cons hl q hq
    rw [sweepAR]
    by_cases hcmp : s ≤ cur.2
    · rw [if_pos hcmp]
      exact ih (cur.1, max cur.2 e) hl.of_cons
        (fun q hq => le_trans hs (hrest q hq))
    · rw [if_neg hcmp]
      have hih := ih (s, e) hl.of_cons hrest
      constructor
      · refine List.Pairwise.cons ?_ hih.1
        intro q hq
        have hq1 : s ≤ q.1 := hih.2 q hq
        exact ⟨le_trans hs hq1, lt_of_lt_of_le (lt_of_not_le hcmp) hq1⟩
      · intro q hq
        rcases List.mem_cons.mp hq with rfl | hq2
        · exact le_refl _
        · exact le_trans hs (hih.2 q hq2)

/-- For any input ordering of the active idle rows the sweep-merge
produces ranges that are sorted ascending by start and pairwise
disjoint. -/
theorem activeRangesOf_pairwise (l : List FRow) :
    (activeRangesOf l).Pairwise (fun a b => a.1 ≤ b.1 ∧ a.2 < b.1) := by
  rw [activeRangesOf]
  have hsorted : List.Sorted (fun a b : ℤ × ℤ => a.1 ≤ b.1)
      ((List.insertionSort frLe l).map (fun f => (f.ts, f.en))) := by
    refine List.Pairwise.map _ ?_ (List.sorted_insertionSort frLe l)
    intro a b hab
    exact hab
  rcases h : (List.insertionSort frLe l).map (fun f => (f.ts, f.en)) with - | ⟨p, rest⟩
  · rw [h]
    exact List.Pairwise.nil
  · rw [h] at hsorted
    rw [h]
    exact (sweepAR_inv rest p hsorted.of_cons
      (fun q hq => List.rel_of_sorted_cons hsorted q hq)).1

/-- C6, confirmed.  For any input ordering of the active idle rows the
sweep-merge produces ranges that are sorted ascending by start and
pairwise disjoint (each range ends strictly before the next begins). -/
theorem c6_active_ranges_disjoint_sorted (l : List FRow) :
    (activeRangesOf l).Pairwise (fun a b => a.1 ≤ b.1 ∧ a.2 < b.1) :=
  activeRangesOf_pairwise l

/-- C9, confirmed.  For a browser-app primary record with a non-trivial
title and no time-overlapping browser record, the fallback scans the
records within ±2 minutes of the primary interval and takes the first
(in source order) whose title is longer than two characters and a
substring of the primary title; if none qualifies, no browser overlay is
attributed. -/
theorem c9_browser_fallback (s e : ℤ) (appName title : String) (dfV : List Rw) (vIdx : Bool)
    (dfW : List Rw) (hw : dfW.all validRw = true)
    (hbm : hasAny appName browserMarkers = true)
    (hem : hasAny appName editorMarkers = false)
    (hne : dfW ≠ []) (htitle : title ≠ "")
    (hnov : ∀ r ∈ dfW, ¬(r.ts ≤ e ∧ s ≤ r.en)) :
    findOverlays s e appName title dfV vIdx dfW (dfW.all validRw) =
      match (dfW.filter (fun r => decide (r.ts ≤ e + twoMin) &&
          decide (s - twoMin ≤ r.en))).find? (fun r => webTitleGood r title) with
      | some r => [mkOv OvKind.web r]
      | none => [] := by
  have hmatched : List.filter (fun r => decide (r.ts ≤ e) && decide (s ≤ r.en)) dfW = [] := by
    rw [List.filter_eq_nil_iff]
    intro r hr
    simp only [Bool.and_eq_true, decide_eq_true_eq]
    exact fun hcon => hnov r hr hcon
  rw [findOverlays, hw]
  simp only [vsOverlays, wsOverlays, hem, hbm, if_false, if_true, Bool.false_eq_true, hne,
    ne_eq, not_false_iff, and_true, true_and, htitle, hmatched]
  rcases hf : (dfW.filter (fun r => decide (r.ts ≤ e + twoMin) &&
      decide (s - twoMin ≤ r.en))).find? (fun r => webTitleGood r title) with - | r
  · rw [hf]
    rfl
  · rw [hf]
    rfl

/-- Overlay wrapping is injective in the wrapped row. -/
theorem mkOv_inj (k : OvKind) (a b : Rw) : mkOv k a = mkOv k b ↔ a = b := by
  constructor
  · intro h
    exact congrArg Ov.data h
  · intro h; rw [h]

/-- Every browser-half overlay is tagged `web`. -/
theorem wsOverlays_kind (s e : ℤ) (appName title : String) (dfW : List Rw) (wIdx : Bool) :
    ∀ ov ∈ wsOverlays s e appName title dfW wIdx, ov.kind = OvKind.web := by
  intro ov hov
  rw [wsOverlays] at hov
  by_cases hbm : hasAny appName browserMarkers = true
  · rw [if_pos hbm] at hov
    rcases List.mem_map.mp hov with ⟨r, -, rfl⟩
    rfl
  · rw [if_neg hbm] at hov
    cases hov

/-- Every editor-half overlay is tagged `vscode`. -/
theorem vsOverlays_kind (s e : ℤ) (appName : String) (dfV : List Rw) (vIdx : Bool) :
    ∀ ov ∈ vsOverlays s e appName dfV vIdx, ov.kind = OvKind.vscode := by
  intro ov hov
  rw [vsOverlays] at hov
  by_cases hem : hasAny appName editorMarkers = true
  · rw [if_pos hem] at hov
    by_cases h1 : dfV ≠ [] ∧ vIdx = true
    · rw [if_pos h1] at hov
      rcases List.mem_map.mp hov with ⟨r, -, rfl⟩
      rfl
    · rw [if_neg h1] at hov
      by_cases h2 : dfV ≠ []
      · rw [if_pos h2] at hov
        rcases List.mem_map.mp hov with ⟨r, -, rfl⟩
        rfl
      · rw [if_neg h2] at hov
        cases hov
  · rw [if_neg hem] at hov
    cases hov

/-- With a live interval index, an editor record is matched as an overlay
exactly when the app-name gate passes and its closed interval meets the
primary's closed interval. -/
theorem vsOverlays_mem (s e : ℤ) (appName : String) (dfV : List Rw) (v : Rw) :
    mkOv OvKind.vscode v ∈ vsOverlays s e appName dfV true ↔
      (hasAny appName editorMarkers = true ∧ v ∈ dfV ∧ v.ts ≤ e ∧ s ≤ v.en) := by
  rw [vsOverlays]
  by_cases hem : hasAny appName editorMarkers = true
  · rw [if_pos hem]
    by_cases hne : dfV = []
    · subst hne
      simp
    · rw [if_pos ⟨hne, rfl⟩]
      simp only [List.mem_map, List.mem_filter, Bool.and_eq_true, decide_eq_true_eq]
      constructor
      · rintro ⟨r, ⟨hrd, hp⟩, heq⟩
        rcases (mkOv_inj OvKind.vscode r v).mp heq with rfl
        exact ⟨hem, hrd, hp⟩
      · rintro ⟨-, hvd, hp⟩
        exact ⟨v, ⟨hvd, hp⟩, rfl⟩
  · rw [if_neg hem]
    simp [hem]

/-- Characterization of the items of the sub-segment loop: an item is
emitted exactly for the threshold-passing pairs, as the fold of the
overlays whose interval contains the pair's midpoint (closed on both
ends) over the re-based base item. -/
theorem segsGo_items (cu : String → String) (base : Item) (ovs : List Ov) :
    ∀ (pairs : List (ℤ × ℤ)) (it : Item),
      it ∈ (segsGo cu base ovs pairs).1 ↔
      ∃ p ∈ pairs, subSegMin ≤ p.2 - p.1 ∧
        it = (foldOvs cu { base with ts := p.1, dur := p.2 - p.1, context := [] }
          (ovs.filter (fun ov => decide (ov.start ≤ p.1 + (p.2 - p.1) / 2) &&
            decide (p.1 + (p.2 - p.1) / 2 ≤ ov.stop)))).1 := by
  intro pairs
  induction pairs with
  | nil =>
    intro it
    constructor
    · intro h
      simp [segsGo] at h
    · rintro ⟨p, hp, -, -⟩
      cases hp
  | cons p rest ih =>
    intro it
    obtain ⟨a, b⟩ := p
    rw [segsGo]
    rcases hsg : segsGo cu base ovs rest with ⟨tl, ps⟩
    dsimp only
    by_cases hd : b - a < subSegMin
    · rw [if_pos hd]
      constructor
      · intro h
        rcases (ih it).mp (by rw [hsg]; exact h) with ⟨q, hq, h1, h2⟩
        exact ⟨q, List.mem_cons_of_mem _ hq, h1, h2⟩
      · rintro ⟨q, hq, h1, h2⟩
        rcases List.mem_cons.mp hq with rfl | hq2
        · have h1' : subSegMin ≤ b - a := h1
          exact absurd h1' (by omega)
        · have hmem := (ih it).mpr ⟨q, hq2, h1, h2⟩
          rw [hsg] at hmem
          exact hmem
    · rw [if_neg hd]
      constructor
      · intro h
        rcases List.mem_cons.mp h with rfl | h2
        · refine ⟨(a, b), List.mem_cons_self _ _, ?_, ?_⟩
          · show subSegMin ≤ b - a
            omega
          · rfl
        · rcases (ih it).mp (by rw [hsg]; exact h2) with ⟨q, hq, h1, h2⟩
          exact ⟨q, List.mem_cons_of_mem _ hq, h1, h2⟩
      · rintro ⟨q, hq, h1, h2⟩
        rcases List.mem_cons.mp hq with rfl | hq2
        · rw [h2]
          exact List.mem_cons_self _ _
        · have hmem := (ih it).mpr ⟨q, hq2, h1, h2⟩
          rw [hsg] at hmem
          exact List.mem_cons_of_mem _ hmem

/-- C4, amended.  Overlay sources are queried only when the primary
record's lowercased app name contains one of the source's marker
substrings (editor: code/cursor/antigravity/windsurf; browser:
chrome/safari/arc/firefox/edge/browser).  When the editor gate passes and
the interval indexes were built, the matched editor overlays are exactly
the editor records whose closed interval meets the primary's closed
interval (`record.start ≤ e` and `s ≤ record.end`); when a gate fails,
no overlay of that source is matched at all.  The matched overlays are
folded into the sub-segments whose midpoint their interval contains
(closed on both ends): `_create_segments` emits exactly one item per
consecutive split-point pair meeting the 0.1 s threshold, built by
folding the midpoint-containing matched overlays over the re-based
primary item. -/
theorem c4_overlay_gating (cu : String → String) (s e : ℤ) (appName title : String)
    (base : Item) (dfV dfW : List Rw)
    (hv : dfV.all validRw = true) (hw : dfW.all validRw = true) :
    (∀ v : Rw, mkOv OvKind.vscode v ∈
        findOverlays s e appName title dfV (dfV.all validRw) dfW (dfW.all validRw) ↔
      (hasAny appName editorMarkers = true ∧ v ∈ dfV ∧ v.ts ≤ e ∧ s ≤ v.en)) ∧
    (hasAny appName editorMarkers = false →
      ∀ ov ∈ findOverlays s e appName title dfV (dfV.all validRw) dfW (dfW.all validRw),
        ov.kind = OvKind.web) ∧
    (hasAny appName browserMarkers = false →
      ∀ ov ∈ findOverlays s e appName title dfV (dfV.all validRw) dfW (dfW.all validRw),
        ov.kind = OvKind.vscode) ∧
    (∀ it : Item,
      it ∈ (createSegments cu s e base
          (findOverlays s e appName title dfV (dfV.all validRw) dfW (dfW.all validRw))).1 ↔
      ∃ p ∈ consecPairs (splitPtsOf s e
          (findOverlays s e appName title dfV (dfV.all validRw) dfW (dfW.all validRw))),
        subSegMin ≤ p.2 - p.1 ∧
        it = (foldOvs cu { base with ts := p.1, dur := p.2 - p.1, context := [] }
          ((findOverlays s e appName title dfV (dfV.all validRw) dfW
              (dfW.all validRw)).filter
            (fun ov => decide (ov.start ≤ p.1 + (p.2 - p.1) / 2) &&
              decide (p.1 + (p.2 - p.1) / 2 ≤ ov.stop)))).1) := by
  rw [hv, hw, findOverlays]
  refine ⟨?_, ?_, ?_, ?_⟩
  · intro v
    rw [List.mem_append]
    constructor
    · rintro (hmem | hmem)
      · exact (vsOverlays_mem s e appName dfV v).mp hmem
      · have := wsOverlays_kind s e appName title dfW true _ hmem
        have hk : OvKind.vscode = OvKind.web := this
        cases hk
    · intro hr
      exact Or.inl ((vsOverlays_mem s e appName dfV v).mpr hr)
  · intro hem ov hov
    rcases List.mem_append.mp hov with hmem | hmem
    · rw [vsOverlays] at hmem
      rw [hem] at hmem
      simp at hmem
    · exact wsOverlays_kind s e appName title dfW true ov hmem
  · intro hbm ov hov
    rcases List.mem_append.mp hov with hmem | hmem
    · exact vsOverlays_kind s e appName dfV true ov hmem
    · rw [wsOverlays] at hmem
      rw [hbm] at hmem
      simp at hmem
  · intro it
    rw [createSegments]
    exact segsGo_items cu base _ _ it

/-- C4 witness: for the editor app `"vscode"` the overlapping editor row
`c4WRow` is matched. -/
theorem c4_overlay_gating_witness :
    mkOv OvKind.vscode c4WRow ∈
      findOverlays 0 (sec 10) "vscode" "" [c4WRow] ([c4WRow].all validRw) []
        (([] : List Rw).all validRw) :=
  ((c4_overlay_gating id 0 (sec 10) "vscode" "" c4Item [c4WRow] [] (by decide)
      (by decide)).1
    c4WRow).mpr ⟨by decide, by decide, by decide, by decide⟩

/-- C4 counterexample: in `c4In` the editor record fully overlaps the
primary record, yet because the primary app is `"textedit"` (no editor
marker) nothing is queried or folded — the emitted segment carries no
file, project or context. -/
theorem c4_counterexample :
    (∃ v ∈ c4In.vscode.map evToRw, v.ts ≤ sec 1 ∧ (0:ℤ) ≤ v.en) ∧
    mergeTimeline (fun u => u) c4In none 0 = Except.ok ([c4Item], [], ∅) ∧
    c4Item.file = none ∧ c4Item.project = none ∧ c4Item.context = [] := by
  refine ⟨by decide, by rfl, by decide, by decide, by decide⟩

/-- C9 witness: the browser fallback matches `c9WRow` (title `"hello"`
inside `"hello world"`, 100 s after the primary interval). -/
theorem c9_browser_fallback_witness :
    findOverlays 0 (sec 10) "chrome" "hello world" [] true [c9WRow]
      ([c9WRow].all validRw) = [mkOv OvKind.web c9WRow] := by
  have h := c9_browser_fallback 0 (sec 10) "chrome" "hello world" [] true [c9WRow]
    (by decide) (by decide) (by decide) (by decide) (by decide) (by decide)
  rw [h]
  decide

/-! Helper lemmas about flattening and the frame min/max. -/

/-- Folding min over timestamps never rises above the seed. -/
theorem foldlMin_init (l : List FRow) :
    ∀ a : ℤ, l.foldl (fun m q => min m q.ts) a ≤ a := by
  induction l with
  | nil => intro a; exact le_refl a
  | cons x xs ih =>
    intro a
    rw [List.foldl_cons]
    calc xs.foldl (fun m q => min m q.ts) (min a x.ts) ≤ min a x.ts := ih _
      _ ≤ a := min_le_left _ _

/-- Folding min over timestamps is a lower bound of every member. -/
theorem foldlMin_le_mem (l : List FRow) :
    ∀ a : ℤ, ∀ q ∈ l, l.foldl (fun m q => min m q.ts) a ≤ q.ts := by
  induction l with
  | nil => intro a q hq; cases hq
  | cons x xs ih =>
    intro a q hq
    rw [List.foldl_cons]
    rcases List.mem_cons.mp hq with rfl | hq2
    · calc xs.foldl (fun m q => min m q.ts) (min a q.ts) ≤ min a q.ts := foldlMin_init _ _
        _ ≤ q.ts := min_le_right _ _
    · exact ih (min a x.ts) q hq2

/-- Folding min over timestamps stays put when the seed is minimal. -/
theorem foldlMin_id (l : List FRow) :
    ∀ a : ℤ, (∀ q ∈ l, a ≤ q.ts) → l.foldl (fun m q => min m q.ts) a = a := by
  induction l with
  | nil => intro a _; rfl
  | cons x xs ih =>
    intro a ha
    rw [List.foldl_cons]
    have hax : a ≤ x.ts := ha x (List.mem_cons_self _ _)
    rw [min_eq_left hax]
    exact ih a (fun q hq => ha q (List.mem_cons_of_mem x hq))

/-- Folding max over ends never falls below the seed. -/
theorem foldlMax_init (l : List FRow) :
    ∀ a : ℤ, a ≤ l.foldl (fun m q => max m q.en) a := by
  induction l with
  | nil => intro a; exact le_refl a
  | cons x xs ih =>
    intro a
    rw [List.foldl_cons]
    calc a ≤ max a x.en := le_max_left _ _
      _ ≤ _ := ih (max a x.en)

/-- Folding max over ends dominates every member. -/
theorem foldlMax_le (l : List FRow) :
    ∀ a : ℤ, ∀ q ∈ l, q.en ≤ l.foldl (fun m q => max m q.en) a := by
  induction l with
  | nil => intro a q hq; cases hq
  | cons x xs ih =>
    intro a q hq
    rw [List.foldl_cons]
    rcases List.mem_cons.mp hq with rfl | hq2
    · calc q.en ≤ max a q.en := le_max_right _ _
        _ ≤ xs.foldl (fun m q => max m q.en) (max a q.en) := foldlMax_init xs _
    · exact ih (max a x.en) q hq2

/-- Folding max over ends is the seed or some member's end. -/
theorem foldlMax_mem (l : List FRow) :
    ∀ a : ℤ, l.foldl (fun m q => max m q.en) a = a ∨
      ∃ q ∈ l, l.foldl (fun m q => max m q.en) a = q.en := by
  induction l with
  | nil => intro a; exact Or.inl rfl
  | cons x xs ih =>
    intro a
    rw [List.foldl_cons]
    rcases ih (max a x.en) with h | ⟨q, hq, hqe⟩
    · rw [h]
      rcases le_total a x.en with hc | hc
      · exact Or.inr ⟨x, List.mem_cons_self _ _, max_eq_right hc⟩
      · exact Or.inl (max_eq_left hc)
    · exact Or.inr ⟨q, List.mem_cons_of_mem x hq, hqe⟩

/-- `minTs` is a lower bound of the timestamps. -/
theorem minTs_le (l : List FRow) (q : FRow) (hq : q ∈ l) : minTs l ≤ q.ts := by
  cases l with
  | nil => cases hq
  | cons x xs =>
    rw [minTs]
    rcases List.mem_cons.mp hq with rfl | hq2
    · exact foldlMin_init xs q.ts
    · exact foldlMin_le_mem xs x.ts q hq2

/-- `maxEn` dominates the ends. -/
theorem le_maxEn (l : List FRow) (q : FRow) (hq : q ∈ l) : q.en ≤ maxEn l := by
  cases l with
  | nil => cases hq
  | cons x xs =>
    rw [maxEn]
    rcases List.mem_cons.mp hq with rfl | hq2
    · exact foldlMax_init xs q.en
    · exact foldlMax_le xs x.en q hq2

/-- `maxEn` of a non-empty frame is attained. -/
theorem maxEn_mem (l : List FRow) (hne : l ≠ []) : ∃ q ∈ l, maxEn l = q.en := by
  cases l with
  | nil => exact absurd rfl hne
  | cons x xs =>
    rw [maxEn]
    rcases foldlMax_mem xs x.en with h | ⟨q, hq, hqe⟩
    · exact ⟨x, List.mem_cons_self _ _, h⟩
    · exact ⟨q, List.mem_cons_of_mem x hq, hqe⟩

/-- Rows surviving `flattenGo` keep their `end` and only gain start. -/
theorem flattenGo_src (l : List FRow) :
    ∀ p : ℤ, ∀ q ∈ flattenGo p l, ∃ f ∈ l, q.en = f.en ∧ f.ts ≤ q.ts := by
  induction l with
  | nil => intro p q hq; cases hq
  | cons x xs ih =>
    intro p q hq
    rw [flattenGo] at hq
    rcases List.mem_cons.mp hq with rfl | hq2
    · refine ⟨x, List.mem_cons_self _ _, ?_⟩
      by_cases hc : x.ts < p
      · rw [if_pos hc]
        exact ⟨rfl, le_of_lt hc⟩
      · rw [if_neg hc]
        exact ⟨rfl, le_refl _⟩
    · rcases ih x.en q hq2 with ⟨f, hf, hfe⟩
      exact ⟨f, List.mem_cons_of_mem x hf, hfe⟩

/-- Recomputing the duration is the identity when it is already
`end - timestamp`. -/
theorem recomputeF_id (f : FRow) (h : f.dur = f.en - f.ts) : recomputeF f = f := by
  cases f
  rw [recomputeF]
  dsimp only at h ⊢
  rw [← h]

/-- `flatPost` on a cons keeps or drops the head. -/
theorem flatPost_cons (x : FRow) (l : List FRow) :
    flatPost (x :: l) =
      if 0 < x.en - x.ts then recomputeF x :: flatPost l else flatPost l := by
  rw [flatPost, List.map_cons, List.filter_cons]
  by_cases hc : 0 < x.en - x.ts
  · rw [if_pos hc, flatPost]
    have hd : (decide (0 < (recomputeF x).dur)) = true := by
      rw [recomputeF]
      exact decide_eq_true hc
    rw [hd, if_pos rfl]
  · rw [if_neg hc, flatPost]
    have hd : (decide (0 < (recomputeF x).dur)) = false := by
      rw [recomputeF]
      exact decide_eq_false hc
    rw [hd, if_neg (by simp)]

/-- `flatPost` membership is monotone under cons. -/
theorem flatPost_mono (x : FRow) (l : List FRow) (q : FRow) (hq : q ∈ flatPost l) :
    q ∈ flatPost (x :: l) := by
  rw [flatPost_cons]
  by_cases hc : 0 < x.en - x.ts
  · rw [if_pos hc]; exact List.mem_cons_of_mem _ hq
  · rw [if_neg hc]; exact hq

/-- `flatPost` members come from the underlying rows by recomputing a
positive duration. -/
theorem flatPost_src (l : List FRow) (q : FRow) (hq : q ∈ flatPost l) :
    ∃ f ∈ l, q = recomputeF f ∧ 0 < q.dur := by
  rw [flatPost] at hq
  rcases List.mem_filter.mp hq with ⟨hmem, hdur⟩
  rcases List.mem_map.mp hmem with ⟨f, hf, rfl⟩
  exact ⟨f, hf, rfl, of_decide_eq_true hdur⟩

/-- Every row's end is dominated by some surviving row's end, unless the
whole row is already covered by the accumulated end `p`. -/
theorem flatten_en_cover (l : List FRow) :
    ∀ p : ℤ, (∀ g ∈ l, g.ts < g.en) → ∀ f ∈ l,
      (∃ q ∈ flatPost (flattenGo p l), f.en ≤ q.en) ∨ f.en ≤ p := by
  induction l with
  | nil => intro p _ f hf; cases hf
  | cons x xs ih =>
    intro p hpos f hf
    rw [flattenGo]
    have hx : x.ts < x.en := hpos x (List.mem_cons_self _ _)
    by_cases hkeep : 0 < x.en - (if x.ts < p then { x with ts := p } else x).ts
    · have hmemx : recomputeF (if x.ts < p then { x with ts := p } else x) ∈
          flatPost ((if x.ts < p then { x with ts := p } else x) :: flattenGo x.en xs) := by
        rw [flatPost_cons, if_pos]
        · exact List.mem_cons_self _ _
        · by_cases hc : x.ts < p
          · rw [if_pos hc] at hkeep ⊢
            exact hkeep
          · rw [if_neg hc] at hkeep ⊢
            exact hkeep
      have henx : (recomputeF (if x.ts < p then { x with ts := p } else x)).en = x.en := by
        by_cases hc : x.ts < p
        · rw [if_pos hc, recomputeF]
        · rw [if_neg hc, recomputeF]
      rcases List.mem_cons.mp hf with rfl | hf2
      · exact Or.inl ⟨_, hmemx, le_of_eq henx.symm⟩
      · rcases ih x.en (fun g hg => hpos g (List.mem_cons_of_mem x hg)) f hf2 with
          ⟨q, hq, hqe⟩ | hcov
        · exact Or.inl ⟨q, flatPost_mono _ _ q hq, hqe⟩
        · exact Or.inl ⟨_, hmemx, by rw [henx]; exact hcov⟩
    · have hdropped : x.en ≤ p := by
        by_cases hc : x.ts < p
        · rw [if_pos hc] at hkeep
          dsimp only at hkeep
          omega
        · rw [if_neg hc] at hkeep
          omega
      rcases List.mem_cons.mp hf with rfl | hf2
      · exact Or.inr hdropped
      · rcases ih x.en (fun g hg => hpos g (List.mem_cons_of_mem x hg)) f hf2 with
          ⟨q, hq, hqe⟩ | hcov
        · exact Or.inl ⟨q, flatPost_mono _ _ q hq, hqe⟩
        · exact Or.inr (le_trans hcov hdropped)

/-- Shape of `flattenActive` on a non-empty frame of valid rows: the
minimal-start row survives untouched at the head. -/
theorem flattenActive_shape (rows : List FRow) (hne : rows ≠ [])
    (hpos : ∀ f ∈ rows, f.ts < f.en) (hdur : ∀ f ∈ rows, f.dur = f.en - f.ts) :
    ∃ s0 frest, List.insertionSort frLe rows = s0 :: frest ∧
      flattenActive rows = s0 :: flatPost (flattenGo s0.en frest) ∧
      s0 ∈ rows ∧ (∀ q ∈ rows, s0.ts ≤ q.ts) ∧ (∀ f ∈ frest, f ∈ rows) := by
  rcases hsrt : List.insertionSort frLe rows with - | ⟨s0, frest⟩
  · exfalso
    have hperm := List.perm_insertionSort frLe rows
    rw [hsrt] at hperm
    exact hne (hperm.symm.eq_nil)
  · have hperm := List.perm_insertionSort frLe rows
    rw [hsrt] at hperm
    have hs0 : s0 ∈ rows := hperm.mem_iff.mp (List.mem_cons_self _ _)
    have hs0dur : s0.dur = s0.en - s0.ts := hdur s0 hs0
    have hs0pos : s0.ts < s0.en := hpos s0 hs0
    refine ⟨s0, frest, rfl, ?_, hs0, ?_, ?_⟩
    · rw [flattenActive, hsrt, flattenAll, flatPost_cons, if_pos (by omega),
        recomputeF_id s0 hs0dur]
    · intro q hq
      have hsorted : List.Sorted frLe (s0 :: frest) := by
        rw [← hsrt]
        exact List.sorted_insertionSort frLe rows
      rcases List.mem_cons.mp (hperm.symm.mem_iff.mp hq) with hh | hh
      · rw [hh]
      · exact List.rel_of_sorted_cons hsorted q hh
    · intro f hf
      exact hperm.mem_iff.mp (List.mem_cons_of_mem s0 hf)

/-- Min/max characterization of the flattened frame: the minimal start
and maximal end over the input rows survive flattening. -/
theorem flattenActive_minmax (rows : List FRow) (hne : rows ≠ [])
    (hpos : ∀ f ∈ rows, f.ts < f.en) (hdur : ∀ f ∈ rows, f.dur = f.en - f.ts) :
    flattenActive rows ≠ [] ∧
    (∃ f ∈ rows, f.ts = minTs (flattenActive rows)) ∧
    (∀ f ∈ rows, minTs (flattenActive rows) ≤ f.ts) ∧
    (∃ f ∈ rows, f.en = maxEn (flattenActive rows)) ∧
    (∀ f ∈ rows, f.en ≤ maxEn (flattenActive rows)) := by
  rcases flattenActive_shape rows hne hpos hdur with
    ⟨s0, frest, hsrt, hflat, hs0, hmin, hsub⟩
  have hminTs : minTs (flattenActive rows) = s0.ts := by
    rw [hflat, minTs]
    apply foldlMin_id
    intro q hq
    rcases flatPost_src _ q hq with ⟨g, hg, rfl, -⟩
    rcases flattenGo_src frest s0.en g hg with ⟨f, hf, -, hfts⟩
    have h1 : s0.ts ≤ f.ts := hmin f (hsub f hf)
    rw [recomputeF]
    exact le_trans h1 hfts
  have hs0mem : s0 ∈ flattenActive rows := by
    rw [hflat]; exact List.mem_cons_self _ _
  refine ⟨by rw [hflat]; exact List.cons_ne_nil _ _, ⟨s0, hs0, hminTs.symm⟩, ?_, ?_, ?_⟩
  · intro f hf
    rw [hminTs]
    exact hmin f hf
  · rcases maxEn_mem (flattenActive rows) (by rw [hflat]; exact List.cons_ne_nil _ _) with
      ⟨q, hq, hqe⟩
    rw [hflat] at hq
    rcases List.mem_cons.mp hq with hh | hh
    · exact ⟨s0, hs0, by rw [hqe, hh]⟩
    · rcases flatPost_src _ q hh with ⟨g, hg, hgr, -⟩
      rcases flattenGo_src frest s0.en g hg with ⟨f, hf, hge, -⟩
      refine ⟨f, hsub f hf, ?_⟩
      rw [hqe, hgr, recomputeF]
      exact hge.symm
  · intro f hf
    have hmem : f ∈ List.insertionSort frLe rows :=
      (List.perm_insertionSort frLe rows).mem_iff.mpr hf
    rw [hsrt] at hmem
    rcases List.mem_cons.mp hmem with hh | hh
    · rw [hh]
      exact le_maxEn _ s0 hs0mem
    · have hpos2 : ∀ g ∈ frest, g.ts < g.en := fun g hg => hpos g (hsub g hg)
      rcases flatten_en_cover frest s0.en hpos2 f hh with ⟨q, hq, hqe⟩ | hcov
      · have hq2 : q ∈ flattenActive rows := by
          rw [hflat]; exact List.mem_cons_of_mem s0 hq
        exact le_trans hqe (le_maxEn _ q hq2)
      · exact le_trans hcov (le_maxEn _ s0 hs0mem)

/-- The content rows are a sub-collection of the input timeline. -/
theorem contentOf_sub (df : List TRow) (r : TRow) (hr : r ∈ contentOf df) : r ∈ df := by
  rw [contentOf] at hr
  exact (List.mem_filter.mp hr).1

/-- The fallback-range part of C7 (no active idle rows, some content). -/
theorem c7_ranges_part (df : List TRow)
    (hnoafk : ∀ r ∈ df, isNotAfkRow (addEn r) = false)
    (hc : contentOf df ≠ []) (hdur : ∀ r ∈ df, 0 < r.dur) :
    ∃ m M, afkRangesOf df = [(m, M)] ∧
      (∀ r ∈ contentOf df, m ≤ r.ts ∧ r.ts + r.dur ≤ M) ∧
      (∃ r ∈ contentOf df, r.ts = m) ∧ (∃ r ∈ contentOf df, r.ts + r.dur = M) := by
  have hfilter : (df.map addEn).filter isNotAfkRow = [] := by
    rw [List.filter_eq_nil_iff]
    intro f hf
    rcases List.mem_map.mp hf with ⟨r, hr, rfl⟩
    rw [hnoafk r hr]
    exact Bool.false_ne_true
  have hrowsne : (contentOf df).map addEn ≠ [] := by
    intro hcon
    exact hc (List.map_eq_nil_iff.mp hcon)
  have hpos : ∀ f ∈ (contentOf df).map addEn, f.ts < f.en := by
    intro f hf
    rcases List.mem_map.mp hf with ⟨r, hr, rfl⟩
    have := hdur r (contentOf_sub df r hr)
    rw [addEn]
    dsimp only
    omega
  have hdur2 : ∀ f ∈ (contentOf df).map addEn, f.dur = f.en - f.ts := by
    intro f hf
    rcases List.mem_map.mp hf with ⟨r, hr, rfl⟩
    rw [addEn]
    dsimp only
    omega
  rcases flattenActive_minmax ((contentOf df).map addEn) hrowsne hpos hdur2 with
    ⟨hflatne, ⟨fm, hfm, hfmts⟩, hminle, ⟨fM, hfM, hfMen⟩, hmaxle⟩
  refine ⟨minTs (flattenActive ((contentOf df).map addEn)),
    maxEn (flattenActive ((contentOf df).map addEn)), ?_, ?_, ?_, ?_⟩
  · rw [afkRangesOf, hfilter]
    rw [if_neg (by simp), if_pos hflatne]
  · intro r hr
    constructor
    · have := hminle (addEn r) (List.mem_map.mpr ⟨r, hr, rfl⟩)
      rw [addEn] at this
      exact this
    · have := hmaxle (addEn r) (List.mem_map.mpr ⟨r, hr, rfl⟩)
      rw [addEn] at this
      exact this
  · rcases List.mem_map.mp hfm with ⟨r, hr, rfl⟩
    exact ⟨r, hr, hfmts⟩
  · rcases List.mem_map.mp hfM with ⟨r, hr, rfl⟩
    exact ⟨r, hr, hfMen⟩

/-- `sorted(set(...))` of a doubled pair. -/
theorem sortedPts_pair (a b : ℤ) (hab : a < b) : sortedPts [a, b, a, b] = [a, b] := by
  have h1 : insOrd b ([] : List ℤ) = [b] := rfl
  have h2 : insOrd a [b] = [a, b] := by rw [insOrd, if_pos hab]
  have h3 : insOrd b [b] = [b] := by rw [insOrd, if_neg (lt_irrefl b), if_pos (Eq.refl b)]
  have h4 : insOrd b [a, b] = [a, b] := by
    rw [insOrd, if_neg (by omega), if_neg (by omega), h3]
  have h5 : insOrd a [a, b] = [a, b] := by
    rw [insOrd, if_neg (lt_irrefl a), if_pos (Eq.refl a)]
  rw [sortedPts]
  show insOrd a (insOrd b (insOrd a (insOrd b []))) = [a, b]
  rw [h1, h2, h4, h5]

/-- Flattening a single valid row is the identity. -/
theorem flattenActive_single (x : FRow) (hpos : x.ts < x.en) (hdur : x.dur = x.en - x.ts) :
    flattenActive [x] = [x] := by
  rw [flattenActive]
  have h1 : List.insertionSort frLe [x] = [x] := rfl
  rw [h1]
  have h2 : flattenAll [x] = [x] := rfl
  rw [h2, flatPost_cons, if_pos (by omega), recomputeF_id x hdur]
  rfl

/-- Re-timing the copied row to its own interval is the identity. -/
theorem emitRow_addEn (r : TRow) : emitRow (addEn r) r.ts r.dur = r := by
  cases r
  rfl

/-- The lone-segment part of C7: with no idle rows at all, a single
content segment above the threshold and not a system app passes through
the AFK filter unchanged. -/
theorem c7_lone_part (r : TRow) (cfg : List String)
    (hsrc : isAfkSrc (addEn r) = false) (hdur : subSegMin ≤ r.dur)
    (hkeep : sysKeep (sysAppsOf cfg) r = true) :
    afkProcess [r] cfg = [r] := by
  have hdpos : 0 < r.dur := by
    have : (0:ℤ) < subSegMin := by decide
    omega
  have hcontent : contentOf [r] = [r] := by
    rw [contentOf]
    simp [hsrc]
  have hposx : (addEn r).ts < (addEn r).en := by
    show r.ts < r.ts + r.dur
    omega
  have hdurx : (addEn r).dur = (addEn r).en - (addEn r).ts := by
    show r.dur = r.ts + r.dur - r.ts
    omega
  have hflat : flattenActive [addEn r] = [addEn r] := flattenActive_single _ hposx hdurx
  have hranges : afkRangesOf [r] = [(r.ts, r.ts + r.dur)] := by
    rw [afkRangesOf]
    have hna : (List.map addEn [r]).filter isNotAfkRow = [] := by
      rw [List.map_singleton, List.filter_singleton, isNotAfkRow, hsrc]
      rfl
    rw [hna, if_neg (by simp), hcontent, List.map_singleton, hflat,
      if_pos (List.cons_ne_nil _ _)]
    rfl
  rw [afkProcess, if_neg (List.cons_ne_nil _ _), hcontent, hranges, afkCore]
  rw [List.map_singleton, hflat]
  have hsr : List.insertionSort prLe [(r.ts, r.ts + r.dur)] = [(r.ts, r.ts + r.dur)] := rfl
  rw [hsr]
  have hpts : afkPts [addEn r] [(r.ts, r.ts + r.dur)] = [r.ts, r.ts + r.dur] := by
    rw [afkPts]
    have : [addEn r].foldr (fun f acc => f.ts :: f.en :: acc)
        ([(r.ts, r.ts + r.dur)].foldr (fun p acc => p.1 :: p.2 :: acc) []) =
        [r.ts, r.ts + r.dur, r.ts, r.ts + r.dur] := rfl
    rw [this]
    exact sortedPts_pair r.ts (r.ts + r.dur) (by omega)
  rw [hpts]
  have hcp : consecPairs [r.ts, r.ts + r.dur] = [(r.ts, r.ts + r.dur)] := rfl
  rw [hcp]
  have hstep : emitStep [addEn r] [(r.ts, r.ts + r.dur)] (r.ts, r.ts + r.dur) = [r] := by
    have hin : isInActive [(r.ts, r.ts + r.dur)] (r.ts + (r.ts + r.dur - r.ts) / 2) = true := by
      have hl : lastLE [(r.ts, r.ts + r.dur)] (r.ts + (r.ts + r.dur - r.ts) / 2) =
          some (r.ts, r.ts + r.dur) := by
        rw [lastLE, if_pos (by omega)]
        rfl
      rw [isInActive, hl]
      show (decide (r.ts ≤ r.ts + (r.ts + r.dur - r.ts) / 2) &&
        decide (r.ts + (r.ts + r.dur - r.ts) / 2 < r.ts + r.dur)) = true
      rw [decide_eq_true (by omega), decide_eq_true (by omega)]
      rfl
    have hc : (decide ((addEn r).ts ≤ r.ts + (r.ts + r.dur - r.ts) / 2) &&
        decide (r.ts + (r.ts + r.dur - r.ts) / 2 < (addEn r).en)) = true := by
      show (decide (r.ts ≤ r.ts + (r.ts + r.dur - r.ts) / 2) &&
        decide (r.ts + (r.ts + r.dur - r.ts) / 2 < r.ts + r.dur)) = true
      rw [decide_eq_true (by omega), decide_eq_true (by omega)]
      rfl
    have hrr : emitRow (addEn r) r.ts (r.ts + r.dur - r.ts) = r := by
      have h2 : r.ts + r.dur - r.ts = r.dur := by omega
      rw [h2]
      exact emitRow_addEn r
    rw [emitStep]
    rw [if_neg (by omega)]
    show (if isInActive [(r.ts, r.ts + r.dur)] (r.ts + (r.ts + r.dur - r.ts) / 2) = true then
        List.filterMap (fun f =>
          if (decide (f.ts ≤ r.ts + (r.ts + r.dur - r.ts) / 2) &&
              decide (r.ts + (r.ts + r.dur - r.ts) / 2 < f.en)) = true then
            some (emitRow f r.ts (r.ts + r.dur - r.ts))
          else none) [addEn r]
      else []) = [r]
    rw [hin, if_pos (Eq.refl true)]
    simp only [List.filterMap_cons, List.filterMap_nil]
    rw [if_pos hc, hrr]
  rw [emitAll, hstep, emitAll, List.append_nil]
  rw [if_neg (List.cons_ne_nil r [])]
  rw [sysFilter, List.filter_singleton, hkeep]
  rfl

/-- C7, confirmed.  (1) When the input contains no active (`not-afk`)
idle rows but the content is non-empty (with the data model's positive
durations), exactly one ActiveRange is used, spanning from the minimum
start to the maximum end across all content segments.  (2) Consequently a
lone content segment above the 0.1 s threshold whose app is not a system
app passes through `AFKProcessor.process` unchanged. -/
theorem c7_fallback_full_active :
    (∀ df : List TRow, (∀ r ∈ df, isNotAfkRow (addEn r) = false) → contentOf df ≠ [] →
      (∀ r ∈ df, 0 < r.dur) →
      ∃ m M, afkRangesOf df = [(m, M)] ∧
        (∀ r ∈ contentOf df, m ≤ r.ts ∧ r.ts + r.dur ≤ M) ∧
        (∃ r ∈ contentOf df, r.ts = m) ∧ (∃ r ∈ contentOf df, r.ts + r.dur = M)) ∧
    (∀ (r : TRow) (cfg : List String), isAfkSrc (addEn r) = false → subSegMin ≤ r.dur →
      sysKeep (sysAppsOf cfg) r = true → afkProcess [r] cfg = [r]) :=
  ⟨c7_ranges_part, c7_lone_part⟩

/-- C7 witness: the no-idle-rows timeline `c7WIn` gets a single fallback
range spanning its content, and the lone segment `c7WRow` passes through
unchanged. -/
theorem c7_fallback_full_active_witness :
    (∃ m M, afkRangesOf c7WIn = [(m, M)] ∧
      (∀ r ∈ contentOf c7WIn, m ≤ r.ts ∧ r.ts + r.dur ≤ M) ∧
      (∃ r ∈ contentOf c7WIn, r.ts = m) ∧ (∃ r ∈ contentOf c7WIn, r.ts + r.dur = M)) ∧
    afkProcess [c7WRow] [] = [c7WRow] :=
  ⟨c7_fallback_full_active.1 c7WIn (by decide) (by decide) (by decide),
   c7_fallback_full_active.2 c7WRow [] (by decide) (by decide) (by decide)⟩

/-! Split-point machinery for the AFK filter sum bound. -/

/-- Membership in a duplicate-free ordered insert. -/
theorem insOrd_mem (x y : ℤ) : ∀ l : List ℤ, y ∈ insOrd x l ↔ y = x ∨ y ∈ l := by
  intro l
  induction l with
  | nil => simp [insOrd]
  | cons z zs ih =>
    rw [insOrd]
    by_cases h1 : x < z
    · rw [if_pos h1]
      simp
    · rw [if_neg h1]
      by_cases h2 : x = z
      · rw [if_pos h2]
        subst h2
        simp only [List.mem_cons]
        constructor
        · intro h; exact Or.inr h
        · rintro (rfl | h)
          · exact Or.inl rfl
          · exact h
      · rw [if_neg h2]
        simp only [List.mem_cons, ih]
        constructor
        · rintro (rfl | rfl | h) <;> simp_all
        · rintro (rfl | rfl | h) <;> simp_all

/-- Ordered insert preserves strict sortedness. -/
theorem insOrd_pairwise (x : ℤ) :
    ∀ l : List ℤ, l.Pairwise (· < ·) → (insOrd x l).Pairwise (· < ·) := by
  intro l
  induction l with
  | nil => intro _; simp [insOrd]
  | cons z zs ih =>
    intro hp
    rw [insOrd]
    by_cases h1 : x < z
    · rw [if_pos h1]
      refine List.Pairwise.cons ?_ hp
      intro y hy
      rcases List.mem_cons.mp hy with rfl | hy2
      · exact h1
      · exact lt_trans h1 (List.rel_of_pairwise_cons hp hy2)
    · rw [if_neg h1]
      by_cases h2 : x = z
      · rw [if_pos h2]
        exact hp
      · rw [if_neg h2]
        have hzx : z < x := by omega
        refine List.Pairwise.cons ?_ (ih hp.of_cons)
        intro y hy
        rcases (insOrd_mem x y zs).mp hy with rfl | hy2
        · exact hzx
        · exact List.rel_of_pairwise_cons hp hy2

/-- Membership in the sorted duplicate-free point list. -/
theorem sortedPts_mem (y : ℤ) : ∀ l : List ℤ, y ∈ sortedPts l ↔ y ∈ l := by
  intro l
  induction l with
  | nil => simp [sortedPts]
  | cons x xs ih =>
    rw [sortedPts, List.foldr_cons]
    rw [show xs.foldr insOrd [] = sortedPts xs from rfl]
    rw [insOrd_mem, ih]
    simp

/-- The point list is strictly sorted. -/
theorem sortedPts_pairwise : ∀ l : List ℤ, (sortedPts l).Pairwise (· < ·) := by
  intro l
  induction l with
  | nil => simp [sortedPts]
  | cons x xs ih =>
    rw [sortedPts, List.foldr_cons]
    rw [show xs.foldr insOrd [] = sortedPts xs from rfl]
    exact insOrd_pairwise x _ ih

/-- Specification of consecutive pairs of a strictly sorted list: both
endpoints are members, the pair is increasing, and no member lies
strictly between. -/
theorem consecPairs_spec :
    ∀ l : List ℤ, l.Pairwise (· < ·) → ∀ p ∈ consecPairs l,
      p.1 ∈ l ∧ p.2 ∈ l ∧ p.1 < p.2 ∧ ∀ x ∈ l, ¬(p.1 < x ∧ x < p.2) := by
  intro l
  induction l with
  | nil => intro _ p hp; cases hp
  | cons a rest ih =>
    intro hp p hmem
    cases rest with
    | nil => cases hmem
    | cons b rest2 =>
      rw [consecPairs] at hmem
      have hab : a < b := List.rel_of_pairwise_cons hp (List.mem_cons_self _ _)
      rcases List.mem_cons.mp hmem with rfl | hmem2
      · refine ⟨List.mem_cons_self _ _, List.mem_cons_of_mem _ (List.mem_cons_self _ _),
          hab, ?_⟩
        intro x hx hbet
        rcases List.mem_cons.mp hx with rfl | hx2
        · exact lt_irrefl _ hbet.1
        · rcases List.mem_cons.mp hx2 with rfl | hx3
          · exact lt_irrefl _ hbet.2
          · have : b < x := List.rel_of_pairwise_cons hp.of_cons hx3
            omega
      · rcases ih hp.of_cons p hmem2 with ⟨h1, h2, h3, h4⟩
        refine ⟨List.mem_cons_of_mem _ h1, List.mem_cons_of_mem _ h2, h3, ?_⟩
        intro x hx hbet
        rcases List.mem_cons.mp hx with rfl | hx2
        · have hxp1 : x < p.1 := by
            have := List.rel_of_pairwise_cons hp h1
            exact this
          omega
        · exact h4 x hx2 hbet

/-- Consecutive pairs of a strictly sorted list are ordered and
non-overlapping. -/
theorem consecPairs_pairwise :
    ∀ l : List ℤ, l.Pairwise (· < ·) →
      (consecPairs l).Pairwise (fun p q => p.2 ≤ q.1) := by
  intro l
  induction l with
  | nil => intro _; exact List.Pairwise.nil
  | cons a rest ih =>
    intro hp
    cases rest with
    | nil => exact List.Pairwise.nil
    | cons b rest2 =>
      rw [consecPairs]
      refine List.Pairwise.cons ?_ (ih hp.of_cons)
      intro q hq
      rcases consecPairs_spec (b :: rest2) hp.of_cons q hq with ⟨h1, -, -, -⟩
      rcases List.mem_cons.mp h1 with rfl | h2
      · exact le_refl _
      · exact le_of_lt (List.rel_of_pairwise_cons hp.of_cons h2)

/-- The base of the point fold is contained in the row fold. -/
theorem rowPts_base (flat : List FRow) (base : List ℤ) (x : ℤ) (hx : x ∈ base) :
    x ∈ flat.foldr (fun f acc => f.ts :: f.en :: acc) base := by
  induction flat with
  | nil => exact hx
  | cons f fs ih =>
    rw [List.foldr_cons]
    exact List.mem_cons_of_mem _ (List.mem_cons_of_mem _ ih)

/-- Range endpoints are split points. -/
theorem afkPts_range_mem (flat : List FRow) (ranges : List (ℤ × ℤ)) (q : ℤ × ℤ)
    (hq : q ∈ ranges) : q.1 ∈ afkPts flat ranges ∧ q.2 ∈ afkPts flat ranges := by
  have hbase : q.1 ∈ ranges.foldr (fun p acc => p.1 :: p.2 :: acc) [] ∧
      q.2 ∈ ranges.foldr (fun p acc => p.1 :: p.2 :: acc) [] := by
    induction ranges with
    | nil => cases hq
    | cons r rs ih =>
      rw [List.foldr_cons]
      rcases List.mem_cons.mp hq with rfl | hq2
      · exact ⟨List.mem_cons_self _ _, List.mem_cons_of_mem _ (List.mem_cons_self _ _)⟩
      · rcases ih hq2 with ⟨ha, hb⟩
        exact ⟨List.mem_cons_of_mem _ (List.mem_cons_of_mem _ ha),
          List.mem_cons_of_mem _ (List.mem_cons_of_mem _ hb)⟩
  rw [afkPts, sortedPts_mem, sortedPts_mem]
  exact ⟨rowPts_base flat _ _ hbase.1, rowPts_base flat _ _ hbase.2⟩

/-- The binary-search lookup returns a member range whose start is at
most the probe. -/
theorem lastLE_mem : ∀ (sr : List (ℤ × ℤ)) (t : ℤ) (q : ℤ × ℤ),
    lastLE sr t = some q → q ∈ sr ∧ q.1 ≤ t := by
  intro sr
  induction sr with
  | nil => intro t q h; cases h
  | cons r rs ih =>
    intro t q h
    obtain ⟨s, e⟩ := r
    rw [lastLE] at h
    by_cases hc : s ≤ t
    · rw [if_pos hc] at h
      rcases hrec : lastLE rs t with - | q2
      · rw [hrec] at h
        injection h with h2
        subst h2
        exact ⟨List.mem_cons_self _ _, hc⟩
      · rw [hrec] at h
        injection h with h2
        rcases ih t q2 hrec with ⟨hm, hle⟩
        rw [← h2]
        exact ⟨List.mem_cons_of_mem _ hm, hle⟩
    · rw [if_neg hc] at h
      cases h

/-- A positive `is_in_active` test names a member range containing the
probe (half-open). -/
theorem isInActive_mem (sr : List (ℤ × ℤ)) (t : ℤ) (h : isInActive sr t = true) :
    ∃ q ∈ sr, q.1 ≤ t ∧ t < q.2 := by
  rw [isInActive] at h
  rcases hl : lastLE sr t with - | q
  · rw [hl] at h
    cases h
  · rw [hl] at h
    obtain ⟨s, e⟩ := q
    rcases lastLE_mem sr t (s, e) hl with ⟨hm, -⟩
    refine ⟨(s, e), hm, ?_⟩
    have := of_decide_eq_true (Bool.and_elim_left h)
    have := of_decide_eq_true (Bool.and_elim_right h)
    exact ⟨by assumption, by assumption⟩

/-- Under pairwise disjointness, at most one row covers any probe. -/
theorem cover_once (flat : List FRow) (hdisj : flat.Pairwise disjF) (m : ℤ)
    (g : FRow → TRow) :
    (flat.filterMap (fun f =>
      if (decide (f.ts ≤ m) && decide (m < f.en)) = true then some (g f) else none)).length
      ≤ 1 := by
  induction flat with
  | nil => simp
  | cons f fs ih =>
    rw [List.filterMap_cons]
    by_cases hc : (decide (f.ts ≤ m) && decide (m < f.en)) = true
    · rw [if_pos hc]
      have hrest : fs.filterMap (fun f =>
          if (decide (f.ts ≤ m) && decide (m < f.en)) = true then some (g f) else none) = [] := by
        rw [List.filterMap_eq_nil_iff]
        intro q hq
        by_cases hc2 : (decide (q.ts ≤ m) && decide (m < q.en)) = true
        · exfalso
          have hcov1 : f.ts ≤ m ∧ m < f.en :=
            ⟨of_decide_eq_true (Bool.and_elim_left hc),
             of_decide_eq_true (Bool.and_elim_right hc)⟩
          have hcov2 : q.ts ≤ m ∧ m < q.en :=
            ⟨of_decide_eq_true (Bool.and_elim_left hc2),
             of_decide_eq_true (Bool.and_elim_right hc2)⟩
          rcases List.rel_of_pairwise_cons hdisj hq with hd | hd <;> omega
        · rw [if_neg hc2]
      rw [hrest]
      rfl
    · rw [if_neg hc]
      exact ih hdisj.of_cons

/-- Every copy emitted for one sub-interval has that interval's width as
its duration. -/
theorem emitStep_dur (flat : List FRow) (sr : List (ℤ × ℤ)) (a b : ℤ) :
    ∀ r ∈ emitStep flat sr (a, b), r.dur = b - a := by
  intro r hr
  rw [emitStep] at hr
  by_cases h1 : b - a < subSegMin
  · rw [if_pos h1] at hr
    cases hr
  · rw [if_neg h1] at hr
    by_cases h2 : isInActive sr (a + (b - a) / 2) = true
    · rw [if_pos h2] at hr
      rcases List.mem_filterMap.mp hr with ⟨f, -, hf⟩
      by_cases h3 : (decide (f.ts ≤ a + (b - a) / 2) && decide (a + (b - a) / 2 < f.en)) = true
      · rw [if_pos h3] at hf
        injection hf with h4
        rw [← h4]
        rfl
      · rw [if_neg h3] at hf
        cases hf
    · rw [if_neg h2] at hr
      cases hr

/-- A non-empty emission implies the sub-interval is at or above the
threshold and midpoint-active. -/
theorem emitStep_ne_nil (flat : List FRow) (sr : List (ℤ × ℤ)) (a b : ℤ)
    (h : emitStep flat sr (a, b) ≠ []) :
    subSegMin ≤ b - a ∧ isInActive sr (a + (b - a) / 2) = true := by
  rw [emitStep] at h
  by_cases h1 : b - a < subSegMin
  · rw [if_pos h1] at h
    exact absurd rfl h
  · rw [if_neg h1] at h
    by_cases h2 : isInActive sr (a + (b - a) / 2) = true
    · exact ⟨by omega, h2⟩
    · rw [if_neg h2] at h
      exact absurd rfl h

/-- Sum bound for one sub-interval: at most one copy (under disjoint
flattened rows), each as long as the interval. -/
theorem emitStep_durSum (flat : List FRow) (hdisj : flat.Pairwise disjF)
    (sr : List (ℤ × ℤ)) (a b : ℤ) :
    durSum (emitStep flat sr (a, b)) ≤
      (if emitStep flat sr (a, b) = [] then 0 else b - a) := by
  by_cases hne : emitStep flat sr (a, b) = []
  · rw [hne, if_pos (Eq.refl ([] : List TRow))]
    exact le_refl 0
  · rw [if_neg hne]
    have hlen : (emitStep flat sr (a, b)).length ≤ 1 := by
      rw [emitStep]
      by_cases h1 : b - a < subSegMin
      · rw [if_pos h1]; exact Nat.zero_le 1
      · rw [if_neg h1]
        by_cases h2 : isInActive sr (a + (b - a) / 2) = true
        · rw [if_pos h2]
          exact cover_once flat hdisj (a + (b - a) / 2) _
        · rw [if_neg h2]; exact Nat.zero_le 1
    have hlen1 : (emitStep flat sr (a, b)).length = 1 := by
      have := List.length_pos.mpr hne
      omega
    rcases List.length_eq_one.mp hlen1 with ⟨r, hr⟩
    rw [hr, durSum, List.map_singleton, List.sum_singleton]
    have : r ∈ emitStep flat sr (a, b) := by rw [hr]; exact List.mem_singleton_self r
    rw [emitStep_dur flat sr a b r this]

/-- The duration column of an appended frame sums componentwise. -/
theorem durSum_append (l1 l2 : List TRow) : durSum (l1 ++ l2) = durSum l1 + durSum l2 := by
  rw [durSum, durSum, durSum, List.map_append, List.sum_append]

/-- The emission sum decomposes over the sub-intervals. -/
theorem emitAll_durSum (flat : List FRow) (sr : List (ℤ × ℤ)) :
    ∀ P : List (ℤ × ℤ), durSum (emitAll flat sr P) =
      (P.map (fun p => durSum (emitStep flat sr p))).sum := by
  intro P
  induction P with
  | nil => rfl
  | cons p ps ih =>
    rw [emitAll, durSum_append, ih, List.map_cons, List.sum_cons]

/-- Pointwise three-way sum split over a mapped list. -/
theorem sum_map_split (f g h : ℤ × ℤ → ℤ) :
    ∀ P : List (ℤ × ℤ), (∀ p ∈ P, f p = g p + h p) →
      (P.map f).sum = (P.map g).sum + (P.map h).sum := by
  intro P
  induction P with
  | nil => intro _; simp
  | cons p ps ih =>
    intro hp
    rw [List.map_cons, List.map_cons, List.map_cons, List.sum_cons, List.sum_cons,
      List.sum_cons, hp p (List.mem_cons_self _ _),
      ih (fun q hq => hp q (List.mem_cons_of_mem p hq))]
    ring

/-- Disjoint selected sub-intervals of a single range sum to at most its
length. -/
theorem inRange_sum (sel : ℤ × ℤ → Bool) :
    ∀ (P : List (ℤ × ℤ)) (lo hi : ℤ), P.Pairwise (fun p q => p.2 ≤ q.1) →
      (∀ p ∈ P, sel p = true → lo ≤ p.1 ∧ p.2 ≤ hi ∧ p.1 < p.2) → lo ≤ hi →
      (P.map (fun p => if sel p then p.2 - p.1 else 0)).sum ≤ hi - lo := by
  intro P
  induction P with
  | nil =>
    intro lo hi _ _ hlh
    simp
    omega
  | cons p ps ih =>
    intro lo hi hpw hsel hlh
    rw [List.map_cons, List.sum_cons]
    by_cases hs : sel p = true
    · rw [if_pos hs]
      rcases hsel p (List.mem_cons_self _ _) hs with ⟨h1, h2, h3⟩
      have hrest : (ps.map (fun p => if sel p then p.2 - p.1 else 0)).sum ≤ hi - p.2 := by
        refine ih p.2 hi hpw.of_cons ?_ h2
        intro q hq hsq
        rcases hsel q (List.mem_cons_of_mem p hq) hsq with ⟨-, hq2, hq3⟩
        exact ⟨List.rel_of_pairwise_cons hpw hq, hq2, hq3⟩
      omega
    · rw [if_neg hs]
      have hrest : (ps.map (fun p => if sel p then p.2 - p.1 else 0)).sum ≤ hi - lo := by
        refine ih lo hi hpw.of_cons ?_ hlh
        intro q hq hsq
        exact hsel q (List.mem_cons_of_mem p hq) hsq
      omega

/-- Packing: disjoint selected sub-intervals, each contained in one of a
sorted disjoint family of nondegenerate ranges, sum to at most the total
range length. -/
theorem packing :
    ∀ R : List (ℤ × ℤ), R.Pairwise (fun a b => a.1 ≤ b.1 ∧ a.2 < b.1) →
      (∀ q ∈ R, q.1 ≤ q.2) →
      ∀ (sel : ℤ × ℤ → Bool) (P : List (ℤ × ℤ)), P.Pairwise (fun p q => p.2 ≤ q.1) →
      (∀ p ∈ P, sel p = true → p.1 < p.2 ∧ ∃ q ∈ R, q.1 ≤ p.1 ∧ p.2 ≤ q.2) →
      (P.map (fun p => if sel p then p.2 - p.1 else 0)).sum ≤ rangeSum R := by
  intro R
  induction R with
  | nil =>
    intro _ _ sel P _ hsel
    have hz : ∀ x ∈ P.map (fun p => if sel p then p.2 - p.1 else 0), x = 0 := by
      intro x hx
      rcases List.mem_map.mp hx with ⟨p, hp, rfl⟩
      by_cases hs : sel p = true
      · rcases hsel p hp hs with ⟨-, q, hq, -⟩
        cases hq
      · rw [if_neg hs]
    rw [List.sum_eq_zero hz, rangeSum]
    simp
  | cons q0 R2 ih =>
    intro hRpw hRnd sel P hPpw hsel
    have hsplit : (P.map (fun p => if sel p then p.2 - p.1 else 0)).sum =
        (P.map (fun p => if sel p && decide (p.1 < q0.2) then p.2 - p.1 else 0)).sum +
        (P.map (fun p => if sel p && !(decide (p.1 < q0.2)) then p.2 - p.1 else 0)).sum := by
      apply sum_map_split
      intro p hp
      by_cases hs : sel p = true
      · by_cases hc : p.1 < q0.2
        · rw [hs]
          rw [decide_eq_true hc]
          simp
        · rw [hs]
          rw [decide_eq_false hc]
          simp
      · have hs2 : sel p = false := by
          cases hsel2 : sel p
          · rfl
          · exact absurd hsel2 hs
        rw [hs2]
        simp
    rw [hsplit]
    have hbound1 : (P.map (fun p =>
        if sel p && decide (p.1 < q0.2) then p.2 - p.1 else 0)).sum ≤ q0.2 - q0.1 := by
      refine inRange_sum _ P q0.1 q0.2 hPpw ?_ (hRnd q0 (List.mem_cons_self _ _))
      intro p hp hsq
      have hs : sel p = true := (Bool.and_eq_true _ _).mp hsq |>.1
      have hc : p.1 < q0.2 := of_decide_eq_true ((Bool.and_eq_true _ _).mp hsq |>.2)
      rcases hsel p hp hs with ⟨hlt, q, hq, hq1, hq2⟩
      rcases List.mem_cons.mp hq with rfl | hq3
      · exact ⟨hq1, hq2, hlt⟩
      · exfalso
        have := (List.rel_of_pairwise_cons hRpw hq3).2
        omega
    have hbound2 : (P.map (fun p =>
        if sel p && !(decide (p.1 < q0.2)) then p.2 - p.1 else 0)).sum ≤ rangeSum R2 := by
      refine ih hRpw.of_cons (fun q hq => hRnd q (List.mem_cons_of_mem q0 hq)) _ P hPpw ?_
      intro p hp hsq
      have hs : sel p = true := (Bool.and_eq_true _ _).mp hsq |>.1
      have hc : ¬(p.1 < q0.2) := by
        have := (Bool.and_eq_true _ _).mp hsq |>.2
        rcases hd : decide (p.1 < q0.2) with - | -
        · exact of_decide_eq_false hd
        · rw [hd] at this
          cases this
      rcases hsel p hp hs with ⟨hlt, q, hq, hq1, hq2⟩
      rcases List.mem_cons.mp hq with rfl | hq3
      · exfalso
        omega
      · exact ⟨hlt, q, hq3, hq1, hq2⟩
    have hrs : rangeSum (q0 :: R2) = (q0.2 - q0.1) + rangeSum R2 := by
      rw [rangeSum, List.map_cons, List.sum_cons, rangeSum]
    rw [hrs]
    omega

/-- The sweep preserves nondegeneracy of ranges. -/
theorem sweepAR_nondeg :
    ∀ (l : List (ℤ × ℤ)) (cur : ℤ × ℤ), cur.1 ≤ cur.2 → (∀ p ∈ l, p.1 ≤ p.2) →
      ∀ q ∈ sweepAR cur l, q.1 ≤ q.2 := by
  intro l
  induction l with
  | nil =>
    intro cur hc _ q hq
    rcases List.mem_singleton.mp hq with rfl
    exact hc
  | cons p rest ih =>
    intro cur hc hl q hq
    obtain ⟨s, e⟩ := p
    rw [sweepAR] at hq
    by_cases hcmp : s ≤ cur.2
    · rw [if_pos hcmp] at hq
      refine ih (cur.1, max cur.2 e) ?_ (fun r hr => hl r (List.mem_cons_of_mem _ hr)) q hq
      calc cur.1 ≤ cur.2 := hc
        _ ≤ max cur.2 e := le_max_left _ _
    · rw [if_neg hcmp] at hq
      rcases List.mem_cons.mp hq with rfl | hq2
      · exact hc
      · exact ih (s, e) (hl (s, e) (List.mem_cons_self _ _))
          (fun r hr => hl r (List.mem_cons_of_mem _ hr)) q hq2

/-- Flattened rows have positive recomputed durations. -/
theorem flattenActive_pos (rows : List FRow) (q : FRow) (hq : q ∈ flattenActive rows) :
    0 < q.dur ∧ q.dur = q.en - q.ts := by
  rw [flattenActive] at hq
  rcases flatPost_src _ q hq with ⟨f, -, rfl, hpos⟩
  refine ⟨hpos, ?_⟩
  rw [recomputeF]

/-- The active ranges the processor uses are sorted and disjoint. -/
theorem afkRangesOf_pairwise (df : List TRow) :
    (afkRangesOf df).Pairwise (fun a b => a.1 ≤ b.1 ∧ a.2 < b.1) := by
  rw [afkRangesOf]
  by_cases h1 : (df.map addEn).filter isNotAfkRow ≠ []
  · rw [if_pos h1]
    exact activeRangesOf_pairwise _
  · rw [if_neg h1]
    by_cases h2 : flattenActive ((contentOf df).map addEn) ≠ []
    · rw [if_pos h2]
      exact List.pairwise_singleton _ _
    · rw [if_neg h2]
      exact List.Pairwise.nil

/-- With the data model's nonnegative durations, every range the
processor uses is nondegenerate. -/
theorem afkRangesOf_nondeg (df : List TRow) (hdur : ∀ r ∈ df, 0 ≤ r.dur) :
    ∀ q ∈ afkRangesOf df, q.1 ≤ q.2 := by
  rw [afkRangesOf]
  by_cases h1 : (df.map addEn).filter isNotAfkRow ≠ []
  · rw [if_pos h1]
    intro q hq
    rw [activeRangesOf] at hq
    rcases hsrt : (List.insertionSort frLe ((df.map addEn).filter isNotAfkRow)).map
        (fun f => (f.ts, f.en)) with - | ⟨p, rest⟩
    · rw [hsrt] at hq
      cases hq
    · rw [hsrt] at hq
      have hnd : ∀ x ∈ p :: rest, x.1 ≤ x.2 := by
        rw [← hsrt]
        intro x hx
        rcases List.mem_map.mp hx with ⟨f, hf, rfl⟩
        have hf2 : f ∈ (df.map addEn).filter isNotAfkRow :=
          (List.perm_insertionSort frLe _).mem_iff.mp hf
        rcases List.mem_map.mp (List.mem_of_mem_filter hf2) with ⟨r, hr, rfl⟩
        have := hdur r hr
        show r.ts ≤ r.ts + r.dur
        omega
      exact sweepAR_nondeg rest p (hnd p (List.mem_cons_self _ _))
        (fun x hx => hnd x (List.mem_cons_of_mem p hx)) q hq
  · rw [if_neg h1]
    by_cases h2 : flattenActive ((contentOf df).map addEn) ≠ []
    · rw [if_pos h2]
      intro q hq
      rcases List.mem_singleton.mp hq with rfl
      rcases List.exists_mem_of_ne_nil _ h2 with ⟨x, hx⟩
      rcases flattenActive_pos _ x hx with ⟨hp, he⟩
      have h3 := minTs_le _ x hx
      have h4 := le_maxEn _ x hx
      show minTs (flattenActive ((contentOf df).map addEn)) ≤
        maxEn (flattenActive ((contentOf df).map addEn))
      omega
    · rw [if_neg h2]
      intro q hq
      cases hq

/-- A family of nondegenerate ranges has nonnegative total length. -/
theorem rangeSum_nonneg (R : List (ℤ × ℤ)) (h : ∀ q ∈ R, q.1 ≤ q.2) : 0 ≤ rangeSum R := by
  rw [rangeSum]
  induction R with
  | nil => simp
  | cons q qs ih =>
    rw [List.map_cons, List.sum_cons]
    have h1 := h q (List.mem_cons_self _ _)
    have h2 := ih (fun r hr => h r (List.mem_cons_of_mem q hr))
    omega

/-- Filtering never increases the duration sum of a nonnegative frame. -/
theorem durSum_filter_le (p : TRow → Bool) :
    ∀ l : List TRow, (∀ r ∈ l, 0 ≤ r.dur) → durSum (l.filter p) ≤ durSum l := by
  intro l
  induction l with
  | nil => intro _; exact le_refl 0
  | cons r rs ih =>
    intro hnn
    rw [List.filter_cons]
    by_cases hp : p r = true
    · rw [if_pos hp]
      have h1 : durSum (r :: rs.filter p) = r.dur + durSum (rs.filter p) := by
        rw [durSum, List.map_cons, List.sum_cons, durSum]
      have h2 : durSum (r :: rs) = r.dur + durSum rs := by
        rw [durSum, List.map_cons, List.sum_cons, durSum]
      rw [h1, h2]
      have := ih (fun q hq => hnn q (List.mem_cons_of_mem r hq))
      omega
    · rw [if_neg hp]
      have h2 : durSum (r :: rs) = r.dur + durSum rs := by
        rw [durSum, List.map_cons, List.sum_cons, durSum]
      have h3 := hnn r (List.mem_cons_self _ _)
      have := ih (fun q hq => hnn q (List.mem_cons_of_mem r hq))
      omega

/-- Every emitted row has nonnegative duration. -/
theorem emitAll_dur_nonneg (flat : List FRow) (sr : List (ℤ × ℤ)) :
    ∀ (P : List (ℤ × ℤ)) (r : TRow), r ∈ emitAll flat sr P → 0 ≤ r.dur := by
  intro P
  induction P with
  | nil => intro r hr; cases hr
  | cons p ps ih =>
    intro r hr
    rw [emitAll] at hr
    rcases List.mem_append.mp hr with hr1 | hr2
    · obtain ⟨a, b⟩ := p
      have hne : emitStep flat sr (a, b) ≠ [] := by
        intro hcon
        rw [hcon] at hr1
        cases hr1
      have hd := emitStep_dur flat sr a b r hr1
      have hge := (emitStep_ne_nil flat sr a b hne).1
      have : (0:ℤ) < subSegMin := by decide
      omega
    · exact ih r hr2

/-- `afkCore` with its lets spelled out. -/
theorem afkCore_eq (content : List TRow) (ranges : List (ℤ × ℤ)) (sysApps : List String) :
    afkCore content ranges sysApps =
      (if emitAll (flattenActive (content.map addEn)) (List.insertionSort prLe ranges)
          (consecPairs (afkPts (flattenActive (content.map addEn)) ranges)) = [] then []
      else sysFilter (emitAll (flattenActive (content.map addEn))
          (List.insertionSort prLe ranges)
          (consecPairs (afkPts (flattenActive (content.map addEn)) ranges))) sysApps) := rfl

/-- Sum bound of the AFK filter core: when the flattened rows are
pairwise disjoint (at most one copy per retained interval), the total
output duration is at most the total active-range length. -/
theorem afkCore_durSum (content : List TRow) (ranges : List (ℤ × ℤ)) (sysApps : List String)
    (hRpw : ranges.Pairwise (fun a b => a.1 ≤ b.1 ∧ a.2 < b.1))
    (hRnd : ∀ q ∈ ranges, q.1 ≤ q.2)
    (hdisj : (flattenActive (content.map addEn)).Pairwise disjF) :
    durSum (afkCore content ranges sysApps) ≤ rangeSum ranges := by
  rw [afkCore_eq]
  by_cases hemit : emitAll (flattenActive (content.map addEn))
      (List.insertionSort prLe ranges)
      (consecPairs (afkPts (flattenActive (content.map addEn)) ranges)) = []
  · rw [if_pos hemit]
    exact rangeSum_nonneg ranges hRnd
  · rw [if_neg hemit]
    have h1 : durSum (sysFilter (emitAll (flattenActive (content.map addEn))
        (List.insertionSort prLe ranges)
        (consecPairs (afkPts (flattenActive (content.map addEn)) ranges))) sysApps) ≤
        durSum (emitAll (flattenActive (content.map addEn))
        (List.insertionSort prLe ranges)
        (consecPairs (afkPts (flattenActive (content.map addEn)) ranges))) := by
      rw [sysFilter]
      exact durSum_filter_le _ _ (fun r hr => emitAll_dur_nonneg _ _ _ r hr)
    refine le_trans h1 ?_
    rw [emitAll_durSum]
    have hptsPW : (afkPts (flattenActive (content.map addEn)) ranges).Pairwise (· < ·) := by
      rw [afkPts]
      exact sortedPts_pairwise _
    have hPpw := consecPairs_pairwise _ hptsPW
    have hpoint : ∀ p ∈ consecPairs (afkPts (flattenActive (content.map addEn)) ranges),
        durSum (emitStep (flattenActive (content.map addEn))
          (List.insertionSort prLe ranges) p) ≤
        (if decide (emitStep (flattenActive (content.map addEn))
          (List.insertionSort prLe ranges) p ≠ []) = true then p.2 - p.1 else 0) := by
      intro p hp
      obtain ⟨a, b⟩ := p
      have hbase := emitStep_durSum (flattenActive (content.map addEn)) hdisj
        (List.insertionSort prLe ranges) a b
      by_cases hne : emitStep (flattenActive (content.map addEn))
          (List.insertionSort prLe ranges) (a, b) = []
      · rw [if_neg (by rw [decide_eq_false (by simp [hne])]; simp), hne]
        exact le_refl 0
      · rw [if_pos (decide_eq_true hne)]
        rw [if_neg hne] at hbase
        exact hbase
    refine le_trans (List.sum_le_sum hpoint) ?_
    refine packing ranges hRpw hRnd
      (fun p => decide (emitStep (flattenActive (content.map addEn))
        (List.insertionSort prLe ranges) p ≠ []))
      (consecPairs (afkPts (flattenActive (content.map addEn)) ranges)) hPpw ?_
    intro p hp hsel
    obtain ⟨a, b⟩ := p
    have hne : emitStep (flattenActive (content.map addEn))
        (List.insertionSort prLe ranges) (a, b) ≠ [] := of_decide_eq_true hsel
    rcases emitStep_ne_nil _ _ a b hne with ⟨hth, hact⟩
    have hsub : (0:ℤ) < subSegMin := by decide
    have hab : a < b := by omega
    refine ⟨hab, ?_⟩
    rcases isInActive_mem _ _ hact with ⟨q, hqsr, hq1, hq2⟩
    have hqr : q ∈ ranges := (List.perm_insertionSort prLe ranges).mem_iff.mp hqsr
    refine ⟨q, hqr, ?_, ?_⟩
    · by_contra hcon
      have haq : a < q.1 := by omega
      rcases afkPts_range_mem (flattenActive (content.map addEn)) ranges q hqr with ⟨hqm, -⟩
      rcases consecPairs_spec _ hptsPW (a, b) hp with ⟨-, -, -, hnob⟩
      have hm1 : a ≤ a + (b - a) / 2 := by omega
      have hm2 : a + (b - a) / 2 < b := by omega
      exact hnob q.1 hqm ⟨haq, by omega⟩
    · by_contra hcon
      have heb : q.2 < b := by omega
      rcases afkPts_range_mem (flattenActive (content.map addEn)) ranges q hqr with ⟨-, hqm⟩
      rcases consecPairs_spec _ hptsPW (a, b) hp with ⟨-, -, -, hnob⟩
      have hm1 : a ≤ a + (b - a) / 2 := by omega
      have hm2 : a + (b - a) / 2 < b := by omega
      exact hnob q.2 hqm ⟨by omega, heb⟩

/-- C2, amended.  When no midpoint is covered by more than one flattened
content segment (the flattened segments are pairwise disjoint), the sum
of the output durations of `AFKProcessor.process` is at most the sum of
the ActiveRange durations derived from the same input.  When flattening
leaves overlapping segments, duplicate overlapping copies are emitted and
the bound can fail (see the counterexample). -/
theorem c2_output_sum_bounded (df : List TRow) (cfgApps : List String)
    (hdur : ∀ r ∈ df, 0 ≤ r.dur)
    (hdisj : (flattenActive ((contentOf df).map addEn)).Pairwise disjF) :
    durSum (afkProcess df cfgApps) ≤ rangeSum (afkRangesOf df) := by
  rw [afkProcess]
  by_cases hdf : df = []
  · rw [if_pos hdf]
    subst hdf
    show (0:ℤ) ≤ rangeSum (afkRangesOf [])
    have h0 : afkRangesOf ([] : List TRow) = [] := rfl
    rw [h0]
    exact le_refl 0
  · rw [if_neg hdf]
    exact afkCore_durSum (contentOf df) (afkRangesOf df) (sysAppsOf cfgApps)
      (afkRangesOf_pairwise df) (afkRangesOf_nondeg df hdur) hdisj

/-- C2 witness: a single content row under a single covering idle range. -/
theorem c2_output_sum_bounded_witness :
    durSum (afkProcess c2WIn []) ≤ rangeSum (afkRangesOf c2WIn) :=
  c2_output_sum_bounded c2WIn [] (by decide) (by decide)

/-- C2 counterexample: the timeline `c2In` (three overlapping content
rows, one covering idle range of 100 s) yields overlapping duplicate
copies totalling 110 s, exceeding the 100 s of ActiveRange. -/
theorem c2_counterexample :
    ¬(durSum (afkProcess c2In []) ≤ rangeSum (afkRangesOf c2In)) := by decide

/-! Machinery for the AFK filter fixed-point analysis. -/

/-- Every copy emitted for one sub-interval starts at the interval start. -/
theorem emitStep_ts (flat : List FRow) (sr : List (ℤ × ℤ)) (a b : ℤ) :
    ∀ r ∈ emitStep flat sr (a, b), r.ts = a := by
  intro r hr
  rw [emitStep] at hr
  by_cases h1 : b - a < subSegMin
  · rw [if_pos h1] at hr
    cases hr
  · rw [if_neg h1] at hr
    by_cases h2 : isInActive sr (a + (b - a) / 2) = true
    · rw [if_pos h2] at hr
      rcases List.mem_filterMap.mp hr with ⟨f, -, hf⟩
      by_cases h3 : (decide (f.ts ≤ a + (b - a) / 2) && decide (a + (b - a) / 2 < f.en)) = true
      · rw [if_pos h3] at hf
        injection hf with h4
        rw [← h4]
        rfl
      · rw [if_neg h3] at hf
        cases hf
    · rw [if_neg h2] at hr
      cases hr

/-- Emitted rows come from some sub-interval's emission. -/
theorem emitAll_src (flat : List FRow) (sr : List (ℤ × ℤ)) :
    ∀ (P : List (ℤ × ℤ)) (r : TRow), r ∈ emitAll flat sr P →
      ∃ p ∈ P, r ∈ emitStep flat sr p := by
  intro P
  induction P with
  | nil => intro r hr; cases hr
  | cons p ps ih =>
    intro r hr
    rw [emitAll] at hr
    rcases List.mem_append.mp hr with h1 | h2
    · exact ⟨p, List.mem_cons_self _ _, h1⟩
    · rcases ih r h2 with ⟨q, hq, hq2⟩
      exact ⟨q, List.mem_cons_of_mem p hq, hq2⟩

/-- Emission over ordered non-overlapping sub-intervals is sorted by
start. -/
theorem emitAll_sorted (flat : List FRow) (sr : List (ℤ × ℤ)) :
    ∀ P : List (ℤ × ℤ), P.Pairwise (fun p q => p.2 ≤ q.1) → (∀ p ∈ P, p.1 < p.2) →
      (emitAll flat sr P).Pairwise (fun r q => r.ts ≤ q.ts) := by
  intro P
  induction P with
  | nil => intro _ _; exact List.Pairwise.nil
  | cons p ps ih =>
    intro hpw hlt
    rw [emitAll]
    rw [List.pairwise_append]
    obtain ⟨a, b⟩ := p
    refine ⟨?_, ih hpw.of_cons (fun q hq => hlt q (List.mem_cons_of_mem (a, b) hq)), ?_⟩
    · have hts := emitStep_ts flat sr a b
      have hconst : ∀ (l : List TRow), (∀ r ∈ l, r.ts = a) →
          l.Pairwise (fun r q => r.ts ≤ q.ts) := by
        intro l
        induction l with
        | nil => intro _; exact List.Pairwise.nil
        | cons x xs ih2 =>
          intro hall
          refine List.Pairwise.cons ?_ (ih2 (fun r hr => hall r (List.mem_cons_of_mem x hr)))
          intro q hq
          rw [hall x (List.mem_cons_self _ _), hall q (List.mem_cons_of_mem x hq)]
      exact hconst _ hts
    · intro r hr q hq
      rcases emitAll_src flat sr ps q hq with ⟨p2, hp2, hq2⟩
      have hp2b := hp2
      obtain ⟨a2, b2⟩ := p2
      rw [emitStep_ts flat sr a b r hr, emitStep_ts flat sr a2 b2 q hq2]
      have h1 := List.rel_of_pairwise_cons hpw hp2
      have h2 := hlt (a, b) (List.mem_cons_self _ _)
      dsimp only at h1 h2 ⊢
      omega

/-- Emission from an empty flattened frame is empty. -/
theorem emitAll_nil_flat (sr : List (ℤ × ℤ)) :
    ∀ P : List (ℤ × ℤ), emitAll [] sr P = [] := by
  intro P
  induction P with
  | nil => rfl
  | cons p ps ih =>
    rw [emitAll, ih]
    obtain ⟨a, b⟩ := p
    rw [List.append_nil, emitStep]
    by_cases h1 : b - a < subSegMin
    · rw [if_pos h1]
    · rw [if_neg h1]
      by_cases h2 : isInActive sr (a + (b - a) / 2) = true
      · rw [if_pos h2]
        rfl
      · rw [if_neg h2]

/-- The core filter of an empty content list is empty. -/
theorem afkCore_nil (R : List (ℤ × ℤ)) (S : List String) : afkCore [] R S = [] := by
  rw [afkCore_eq]
  have h1 : flattenActive (List.map addEn []) = [] := rfl
  rw [h1, emitAll_nil_flat]
  rw [if_pos rfl]

/-- The trimming pass is the identity on a non-overlapping frame. -/
theorem flattenGo_id :
    ∀ (l : List FRow) (p : ℤ), List.Chain' (fun x y => x.en ≤ y.ts) l →
      (∀ f ∈ l.head?, p ≤ f.ts) → flattenGo p l = l := by
  intro l
  induction l with
  | nil => intro p _ _; rfl
  | cons x xs ih =>
    intro p hch hp
    rw [flattenGo]
    rw [if_neg (by have := hp x rfl; omega)]
    congr 1
    refine ih x.en hch.tail ?_
    intro f hf
    cases xs with
    | nil => cases hf
    | cons y ys =>
      have hf2 : f = y := by
        injection hf with h
        exact h.symm
      subst hf2
      exact (List.chain'_cons.mp hch).1

/-- Whole-frame version of `flattenGo_id`. -/
theorem flattenAll_id (l : List FRow) (hch : List.Chain' (fun x y => x.en ≤ y.ts) l) :
    flattenAll l = l := by
  cases l with
  | nil => rfl
  | cons x xs =>
    rw [flattenAll]
    congr 1
    refine flattenGo_id xs x.en hch.tail ?_
    intro f hf
    cases xs with
    | nil => cases hf
    | cons y ys =>
      have hf2 : f = y := by
        injection hf with h
        exact h.symm
      subst hf2
      exact (List.chain'_cons.mp hch).1

/-- The duration-recompute-and-filter pass is the identity on consistent
positive rows. -/
theorem flatPost_id :
    ∀ l : List FRow, (∀ f ∈ l, f.dur = f.en - f.ts ∧ 0 < f.dur) → flatPost l = l := by
  intro l
  induction l with
  | nil => intro _; rfl
  | cons x xs ih =>
    intro hl
    rcases hl x (List.mem_cons_self _ _) with ⟨h1, h2⟩
    rw [flatPost_cons, if_pos (by omega), recomputeF_id x h1,
      ih (fun f hf => hl f (List.mem_cons_of_mem x hf))]

/-- Flattening is the identity on a sorted, non-overlapping, consistent
positive frame. -/
theorem flattenActive_id (l : List FRow) (hsort : List.Sorted frLe l)
    (hch : List.Chain' (fun x y => x.en ≤ y.ts) l)
    (hl : ∀ f ∈ l, f.dur = f.en - f.ts ∧ 0 < f.dur) :
    flattenActive l = l := by
  rw [flattenActive, hsort.insertionSort_eq, flattenAll_id l hch, flatPost_id l hl]

/-- Row endpoints are split points. -/
theorem afkPts_row_mem (flat : List FRow) (ranges : List (ℤ × ℤ)) (f : FRow)
    (hf : f ∈ flat) : f.ts ∈ afkPts flat ranges ∧ f.en ∈ afkPts flat ranges := by
  rw [afkPts, sortedPts_mem, sortedPts_mem]
  have : ∀ base : List ℤ,
      f.ts ∈ flat.foldr (fun g acc => g.ts :: g.en :: acc) base ∧
      f.en ∈ flat.foldr (fun g acc => g.ts :: g.en :: acc) base := by
    intro base
    induction flat with
    | nil => cases hf
    | cons x xs ih =>
      rw [List.foldr_cons]
      rcases List.mem_cons.mp hf with rfl | hf2
      · exact ⟨List.mem_cons_self _ _, List.mem_cons_of_mem _ (List.mem_cons_self _ _)⟩
      · rcases ih hf2 with ⟨h1, h2⟩
        exact ⟨List.mem_cons_of_mem _ (List.mem_cons_of_mem _ h1),
          List.mem_cons_of_mem _ (List.mem_cons_of_mem _ h2)⟩
  exact this _

/-- Split points come from row endpoints or range endpoints. -/
theorem afkPts_src (flat : List FRow) (ranges : List (ℤ × ℤ)) (x : ℤ)
    (hx : x ∈ afkPts flat ranges) :
    (∃ f ∈ flat, x = f.ts ∨ x = f.en) ∨ ∃ q ∈ ranges, x = q.1 ∨ x = q.2 := by
  rw [afkPts, sortedPts_mem] at hx
  have hbase : ∀ (l : List FRow) (base : List ℤ),
      x ∈ l.foldr (fun g acc => g.ts :: g.en :: acc) base →
      (∃ f ∈ l, x = f.ts ∨ x = f.en) ∨ x ∈ base := by
    intro l
    induction l with
    | nil => intro base h; exact Or.inr h
    | cons g gs ih =>
      intro base h
      rw [List.foldr_cons] at h
      rcases List.mem_cons.mp h with rfl | h2
      · exact Or.inl ⟨g, List.mem_cons_self _ _, Or.inl rfl⟩
      · rcases List.mem_cons.mp h2 with rfl | h3
        · exact Or.inl ⟨g, List.mem_cons_self _ _, Or.inr rfl⟩
        · rcases ih base h3 with ⟨f, hf, hfe⟩ | h4
          · exact Or.inl ⟨f, List.mem_cons_of_mem _ hf, hfe⟩
          · exact Or.inr h4
  rcases hbase flat _ hx with h1 | h2
  · exact Or.inl h1
  · right
    clear hx hbase
    induction ranges with
    | nil => cases h2
    | cons q qs ih =>
      rw [List.foldr_cons] at h2
      rcases List.mem_cons.mp h2 with rfl | h3
      · exact ⟨q, List.mem_cons_self _ _, Or.inl rfl⟩
      · rcases List.mem_cons.mp h3 with rfl | h4
        · exact ⟨q, List.mem_cons_self _ _, Or.inr rfl⟩
        · rcases ih h4 with ⟨q2, hq2, hq2e⟩
          exact ⟨q2, List.mem_cons_of_mem _ hq2, hq2e⟩

/-- Two members of a strictly sorted list with no member strictly between
them form a consecutive pair. -/
theorem consec_of_no_between :
    ∀ l : List ℤ, l.Pairwise (· < ·) → ∀ x y : ℤ, x ∈ l → y ∈ l → x < y →
      (∀ z ∈ l, ¬(x < z ∧ z < y)) → (x, y) ∈ consecPairs l := by
  intro l
  induction l with
  | nil => intro _ x y hx _ _ _; cases hx
  | cons a rest ih =>
    intro hpw x y hx hy hxy hnob
    cases rest with
    | nil =>
      rcases List.mem_singleton.mp hx with rfl
      rcases List.mem_singleton.mp hy with rfl
      omega
    | cons b rest2 =>
      rw [consecPairs]
      rcases List.mem_cons.mp hx with rfl | hx2
      · have hy2 : y ∈ b :: rest2 := by
          rcases List.mem_cons.mp hy with rfl | h
          · omega
          · exact h
        rcases List.mem_cons.mp hy2 with rfl | hy3
        · exact List.mem_cons_self _ _
        · exfalso
          have hab : x < b := List.rel_of_pairwise_cons hpw (List.mem_cons_self _ _)
          have hby : b < y := List.rel_of_pairwise_cons hpw.of_cons hy3
          exact hnob b (List.mem_cons_of_mem _ (List.mem_cons_self _ _)) ⟨hab, hby⟩
      · have hy2 : y ∈ b :: rest2 := by
          rcases List.mem_cons.mp hy with rfl | h
          · exfalso
            have := List.rel_of_pairwise_cons hpw hx2
            omega
          · exact h
        refine List.mem_cons_of_mem _ (ih hpw.of_cons x y hx2 hy2 hxy ?_)
        intro z hz
        exact hnob z (List.mem_cons_of_mem _ hz)

/-- Two consecutive pairs sharing an interior point are equal. -/
theorem consec_unique (l : List ℤ) (hpw : l.Pairwise (· < ·)) (p1 p2 : ℤ × ℤ)
    (h1 : p1 ∈ consecPairs l) (h2 : p2 ∈ consecPairs l) (m : ℤ)
    (hm1 : p1.1 ≤ m ∧ m < p1.2) (hm2 : p2.1 ≤ m ∧ m < p2.2) : p1 = p2 := by
  rcases consecPairs_spec l hpw p1 h1 with ⟨ha1, hb1, hlt1, hnob1⟩
  rcases consecPairs_spec l hpw p2 h2 with ⟨ha2, hb2, hlt2, hnob2⟩
  have heq1 : p1.1 = p2.1 := by
    by_contra hne
    rcases lt_or_gt_of_ne hne with hlt | hgt
    · exact hnob1 p2.1 ha2 ⟨hlt, by omega⟩
    · exact hnob2 p1.1 ha1 ⟨hgt, by omega⟩
  have heq2 : p1.2 = p2.2 := by
    by_contra hne
    rcases lt_or_gt_of_ne hne with hlt | hgt
    · exact hnob2 p1.2 hb1 ⟨by omega, hlt⟩
    · exact hnob1 p2.2 hb2 ⟨by omega, hgt⟩
  obtain ⟨x1, y1⟩ := p1
  obtain ⟨x2, y2⟩ := p2
  dsimp only at heq1 heq2
  rw [heq1, heq2]

/-- With pairwise-disjoint rows, the copy list for a midpoint covered by
`r` is exactly the one copy of `r`. -/
theorem single_cover (m a d : ℤ) :
    ∀ L : List TRow, L.Pairwise disjT → ∀ r ∈ L, r.ts ≤ m → m < r.ts + r.dur →
      (L.map addEn).filterMap (fun f =>
        if (decide (f.ts ≤ m) && decide (m < f.en)) = true then some (emitRow f a d)
        else none) = [emitRow (addEn r) a d] := by
  intro L
  induction L with
  | nil => intro _ r hr; cases hr
  | cons x xs ih =>
    intro hdisj r hr hc1 hc2
    rw [List.map_cons, List.filterMap_cons]
    rcases List.mem_cons.mp hr with rfl | hr2
    · have hcx : (decide ((addEn r).ts ≤ m) && decide (m < (addEn r).en)) = true := by
        have h1 : (addEn r).ts = r.ts := rfl
        have h2 : (addEn r).en = r.ts + r.dur := rfl
        rw [h1, h2, decide_eq_true hc1, decide_eq_true hc2]
        rfl
      rw [if_pos hcx]
      have hrest : (xs.map addEn).filterMap (fun f =>
          if (decide (f.ts ≤ m) && decide (m < f.en)) = true then some (emitRow f a d)
          else none) = [] := by
        rw [List.filterMap_eq_nil_iff]
        intro f hf
        rcases List.mem_map.mp hf with ⟨q, hq, rfl⟩
        have hq1 : (addEn q).ts = q.ts := rfl
        have hq2 : (addEn q).en = q.ts + q.dur := rfl
        have hdq := List.rel_of_pairwise_cons hdisj hq
        have hcq : ¬((decide ((addEn q).ts ≤ m) && decide (m < (addEn q).en)) = true) := by
          rw [hq1, hq2]
          intro hcon
          have hx1 := of_decide_eq_true (Bool.and_elim_left hcon)
          have hx2 := of_decide_eq_true (Bool.and_elim_right hcon)
          rcases hdq with hd | hd <;> omega
        rw [if_neg hcq]
      rw [hrest]
    · have hcx : ¬((decide ((addEn x).ts ≤ m) && decide (m < (addEn x).en)) = true) := by
        have h1 : (addEn x).ts = x.ts := rfl
        have h2 : (addEn x).en = x.ts + x.dur := rfl
        rw [h1, h2]
        intro hcon
        have hx1 := of_decide_eq_true (Bool.and_elim_left hcon)
        have hx2 := of_decide_eq_true (Bool.and_elim_right hcon)
        have hdq := List.rel_of_pairwise_cons hdisj hr2
        rcases hdq with hd | hd <;> omega
      rw [if_neg hcx]
      exact ih hdisj.of_cons r hr2 hc1 hc2

/-- One sub-interval step on a disjoint frame whose midpoint one row
covers emits exactly the one copy of that row. -/
theorem emitStep_single (L : List TRow) (sr : List (ℤ × ℤ)) (a b : ℤ)
    (hdisj : L.Pairwise disjT) (hth : ¬(b - a < subSegMin))
    (hact : isInActive sr (a + (b - a) / 2) = true)
    (r : TRow) (hr : r ∈ L) (hc1 : r.ts ≤ a + (b - a) / 2)
    (hc2 : a + (b - a) / 2 < r.ts + r.dur) :
    emitStep (L.map addEn) sr (a, b) = [emitRow (addEn r) a (b - a)] := by
  rw [emitStep]
  rw [if_neg hth, if_pos hact]
  exact single_cover (a + (b - a) / 2) a (b - a) L hdisj r hr hc1 hc2

/-- A sub-interval step with no covering row emits nothing. -/
theorem emitStep_empty (flat : List FRow) (sr : List (ℤ × ℤ)) (a b : ℤ)
    (h : ∀ f ∈ flat,
      ¬((decide (f.ts ≤ a + (b - a) / 2) && decide (a + (b - a) / 2 < f.en)) = true)) :
    emitStep flat sr (a, b) = [] := by
  rw [emitStep]
  by_cases h1 : b - a < subSegMin
  · rw [if_pos h1]
  · rw [if_neg h1]
    by_cases h2 : isInActive sr (a + (b - a) / 2) = true
    · rw [if_pos h2]
      rw [List.filterMap_eq_nil_iff]
      intro f hf
      rw [if_neg (h f hf)]
    · rw [if_neg h2]

/-- When each output row's own sub-interval re-emits exactly that row
and every other sub-interval emits nothing, the segment loop reproduces
the output list. -/
theorem emit_exact (flat : List FRow) (sr : List (ℤ × ℤ)) :
    ∀ (P : List (ℤ × ℤ)) (L : List TRow),
      L.Pairwise (fun r q => r.ts < q.ts) →
      (∀ r ∈ L, (r.ts, r.ts + r.dur) ∈ P ∧
        emitStep flat sr (r.ts, r.ts + r.dur) = [r]) →
      (∀ p ∈ P, (∀ r ∈ L, p ≠ (r.ts, r.ts + r.dur)) → emitStep flat sr p = []) →
      P.Pairwise (fun p q => p.2 ≤ q.1) → (∀ p ∈ P, p.1 < p.2) →
      emitAll flat sr P = L := by
  intro P
  induction P with
  | nil =>
    intro L _ hB _ _ _
    cases L with
    | nil => rfl
    | cons r L2 =>
      rcases (hB r (List.mem_cons_self _ _)).1 with h
      cases h
  | cons p ps ih =>
    intro L hA hB hC hD hE
    rw [emitAll]
    cases L with
    | nil =>
      rw [hC p (List.mem_cons_self _ _) (by intro r hr; cases hr), List.nil_append]
      exact ih [] List.Pairwise.nil (by intro r hr; cases hr)
        (fun q hq hno => hC q (List.mem_cons_of_mem p hq) hno) hD.of_cons
        (fun q hq => hE q (List.mem_cons_of_mem p hq))
    | cons r0 L2 =>
      by_cases hp0 : p = (r0.ts, r0.ts + r0.dur)
      · rw [hp0, (hB r0 (List.mem_cons_self _ _)).2]
        have htail : emitAll flat sr ps = L2 := by
          apply ih L2 hA.of_cons
          · intro r hr
            rcases hB r (List.mem_cons_of_mem r0 hr) with ⟨hin, hstep2⟩
            refine ⟨?_, hstep2⟩
            rcases List.mem_cons.mp hin with heq | hin2
            · exfalso
              have hlt := List.rel_of_pairwise_cons hA hr
              rw [hp0] at heq
              have h1 := congrArg Prod.fst heq
              dsimp only at h1
              omega
            · exact hin2
          · intro q hq hno
            apply hC q (List.mem_cons_of_mem p hq)
            intro r hr
            rcases List.mem_cons.mp hr with rfl | hr2
            · intro hcon
              have hpq := List.rel_of_pairwise_cons hD hq
              have hq1 := hE q (List.mem_cons_of_mem p hq)
              rw [hp0] at hpq
              rw [hcon] at hpq hq1
              dsimp only at hpq hq1
              omega
            · exact hno r hr2
          · exact hD.of_cons
          · exact fun q hq => hE q (List.mem_cons_of_mem p hq)
        rw [htail]
        rfl
      · have hstep : emitStep flat sr p = [] := by
          apply hC p (List.mem_cons_self _ _)
          intro r hr
          rcases List.mem_cons.mp hr with rfl | hr2
          · exact hp0
          · intro hcon
            have hpair0 := (hB r0 (List.mem_cons_self _ _)).1
            have hlt := List.rel_of_pairwise_cons hA hr2
            rcases List.mem_cons.mp hpair0 with heq | hin2
            · rw [hcon] at heq
              have h1 := congrArg Prod.fst heq
              dsimp only at h1
              omega
            · have hpq := List.rel_of_pairwise_cons hD hin2
              have hq1 := hE p (List.mem_cons_self _ _)
              rw [hcon] at hpq hq1
              dsimp only at hpq hq1
              omega
        rw [hstep, List.nil_append]
        apply ih (r0 :: L2) hA
        · intro r hr
          rcases hB r hr with ⟨hin, hstep2⟩
          refine ⟨?_, hstep2⟩
          rcases List.mem_cons.mp hin with heq | hin2
          · exfalso
            rw [← heq] at hstep
            rw [hstep2] at hstep
            cases hstep
          · exact hin2
        · intro q hq hno
          exact hC q (List.mem_cons_of_mem p hq) hno
        · exact hD.of_cons
        · exact fun q hq => hE q (List.mem_cons_of_mem p hq)

/-- Every output row of the core filter carries the data of one retained
consecutive sub-interval. -/
theorem afkCore_src (c : List TRow) (R : List (ℤ × ℤ)) (S : List String) (r : TRow)
    (hr : r ∈ afkCore c R S) :
    ∃ a b : ℤ,
      (a, b) ∈ consecPairs (afkPts (flattenActive (c.map addEn)) R) ∧
      r.ts = a ∧ r.dur = b - a ∧ subSegMin ≤ b - a ∧
      isInActive (List.insertionSort prLe R) (a + (b - a) / 2) = true := by
  rw [afkCore_eq] at hr
  by_cases hemit : emitAll (flattenActive (c.map addEn)) (List.insertionSort prLe R)
      (consecPairs (afkPts (flattenActive (c.map addEn)) R)) = []
  · rw [if_pos hemit] at hr
    cases hr
  · rw [if_neg hemit, sysFilter] at hr
    have hr2 := List.mem_of_mem_filter hr
    rcases emitAll_src _ _ _ r hr2 with ⟨p, hp, hpin⟩
    obtain ⟨a, b⟩ := p
    have hne : emitStep (flattenActive (c.map addEn)) (List.insertionSort prLe R)
        (a, b) ≠ [] := by
      intro hcon
      rw [hcon] at hpin
      cases hpin
    rcases emitStep_ne_nil _ _ a b hne with ⟨h1, h2⟩
    exact ⟨a, b, hp, emitStep_ts _ _ a b r hpin, emitStep_dur _ _ a b r hpin, h1, h2⟩

/-- Every output row of the core filter survives the system-app check. -/
theorem afkCore_keep (c : List TRow) (R : List (ℤ × ℤ)) (S : List String) (r : TRow)
    (hr : r ∈ afkCore c R S) : sysKeep S r = true := by
  rw [afkCore_eq] at hr
  by_cases hemit : emitAll (flattenActive (c.map addEn)) (List.insertionSort prLe R)
      (consecPairs (afkPts (flattenActive (c.map addEn)) R)) = []
  · rw [if_pos hemit] at hr
    cases hr
  · rw [if_neg hemit, sysFilter] at hr
    exact List.of_mem_filter hr

/-- The core filter's output is sorted by start. -/
theorem afkCore_sorted (c : List TRow) (R : List (ℤ × ℤ)) (S : List String) :
    (afkCore c R S).Pairwise (fun r q => r.ts ≤ q.ts) := by
  rw [afkCore_eq]
  by_cases hemit : emitAll (flattenActive (c.map addEn)) (List.insertionSort prLe R)
      (consecPairs (afkPts (flattenActive (c.map addEn)) R)) = []
  · rw [if_pos hemit]
    exact List.Pairwise.nil
  · rw [if_neg hemit, sysFilter]
    apply List.Pairwise.filter
    apply emitAll_sorted
    · exact consecPairs_pairwise _ (by rw [afkPts]; exact sortedPts_pairwise _)
    · intro p hp
      exact (consecPairs_spec _ (by rw [afkPts]; exact sortedPts_pairwise _) p hp).2.2.1

/-- C8: the AFK filter is a fixed point on its own output when that
output is pairwise non-overlapping — re-running `AFKProcessor.process`
with the same active ranges and the same system-app set returns the
output unchanged. (When the output contains overlapping copies, the
second pass duplicates them; see the counterexample.) -/
theorem c8_afk_filter_fixed_point (c : List TRow) (R : List (ℤ × ℤ)) (S : List String)
    (hdisj : (afkCore c R S).Pairwise disjT) :
    afkCore (afkCore c R S) R S = afkCore c R S := by
  have hsub : (0 : ℤ) < subSegMin := by decide
  have hkeep : ∀ r ∈ afkCore c R S, sysKeep S r = true :=
    fun r hr => afkCore_keep c R S r hr
  have hsorted := afkCore_sorted c R S
  have hdurpos : ∀ r ∈ afkCore c R S, 0 < r.dur := by
    intro r hr
    rcases afkCore_src c R S r hr with ⟨a, b, -, -, hdur, hth, -⟩
    omega
  have hpts1pw : (afkPts (flattenActive (c.map addEn)) R).Pairwise (· < ·) := by
    rw [afkPts]
    exact sortedPts_pairwise _
  have hstrict : (afkCore c R S).Pairwise (fun r q => r.ts < q.ts) := by
    refine List.Pairwise.imp_of_mem ?_ (hsorted.and hdisj)
    intro r q hr hq hrel
    have h1 := hdurpos r hr
    have h2 := hdurpos q hq
    have h3 := hrel.1
    rcases hrel.2 with hd | hd <;> omega
  have hadj : (afkCore c R S).Pairwise (fun r q => r.ts + r.dur ≤ q.ts) := by
    refine List.Pairwise.imp_of_mem ?_ (hsorted.and hdisj)
    intro r q hr hq hrel
    have h2 := hdurpos q hq
    have h3 := hrel.1
    rcases hrel.2 with hd | hd <;> omega
  have hsortmap : List.Sorted frLe ((afkCore c R S).map addEn) := by
    refine List.pairwise_map.mpr ?_
    exact List.Pairwise.imp (fun h => h) hsorted
  have hchain : List.Chain' (fun x y => x.en ≤ y.ts) ((afkCore c R S).map addEn) := by
    refine List.Pairwise.chain' ?_
    refine List.pairwise_map.mpr ?_
    exact List.Pairwise.imp (fun h => h) hadj
  have hcols : ∀ f ∈ (afkCore c R S).map addEn, f.dur = f.en - f.ts ∧ 0 < f.dur := by
    intro f hf
    rcases List.mem_map.mp hf with ⟨r, hr, rfl⟩
    have h1 := hdurpos r hr
    refine ⟨?_, h1⟩
    show r.dur = r.ts + r.dur - r.ts
    omega
  have hflat2 : flattenActive ((afkCore c R S).map addEn) = (afkCore c R S).map addEn :=
    flattenActive_id _ hsortmap hchain hcols
  have hpts2pw : (afkPts ((afkCore c R S).map addEn) R).Pairwise (· < ·) := by
    rw [afkPts]
    exact sortedPts_pairwise _
  have hpairP2 : ∀ q ∈ afkCore c R S, (q.ts, q.ts + q.dur) ∈
      consecPairs (afkPts ((afkCore c R S).map addEn) R) := by
    intro q hq
    have hm := afkPts_row_mem ((afkCore c R S).map addEn) R (addEn q)
      (List.mem_map_of_mem addEn hq)
    have hdq := hdurpos q hq
    rcases afkCore_src c R S q hq with ⟨aq, bq, hqin, hqts, hqdur, -, -⟩
    apply consec_of_no_between _ hpts2pw q.ts (q.ts + q.dur) hm.1 hm.2 (by omega)
    intro z hz hbet
    have hz1 : z ∈ afkPts (flattenActive (c.map addEn)) R := by
      rcases afkPts_src _ _ z hz with ⟨f, hf, hfz⟩ | ⟨rg, hrg, hrz⟩
      · rcases List.mem_map.mp hf with ⟨w, hw, rfl⟩
        rcases afkCore_src c R S w hw with ⟨aw, bw, hwin, hwts, hwdur, -, -⟩
        rcases consecPairs_spec _ hpts1pw _ hwin with ⟨hma, hmb, -, -⟩
        rcases hfz with rfl | rfl
        · have hget : (addEn w).ts = aw := hwts
          rw [hget]
          exact hma
        · have hget : (addEn w).en = bw := by
            show w.ts + w.dur = bw
            omega
          rw [hget]
          exact hmb
      · rcases afkPts_range_mem (flattenActive (c.map addEn)) R rg hrg with ⟨h1, h2⟩
        rcases hrz with rfl | rfl
        · exact h1
        · exact h2
    rcases consecPairs_spec _ hpts1pw _ hqin with ⟨-, -, -, hnob⟩
    exact hnob z hz1 ⟨by omega, by omega⟩
  have hB : ∀ r ∈ afkCore c R S, (r.ts, r.ts + r.dur) ∈
      consecPairs (afkPts ((afkCore c R S).map addEn) R) ∧
      emitStep ((afkCore c R S).map addEn) (List.insertionSort prLe R)
        (r.ts, r.ts + r.dur) = [r] := by
    intro r hr
    refine ⟨hpairP2 r hr, ?_⟩
    rcases afkCore_src c R S r hr with ⟨a, b, -, hts, hdur, hth, hact⟩
    have hmid : r.ts + (r.ts + r.dur - r.ts) / 2 = a + (b - a) / 2 := by omega
    have hstep := emitStep_single (afkCore c R S) (List.insertionSort prLe R)
      r.ts (r.ts + r.dur) hdisj (by omega) (by rw [hmid]; exact hact) r hr
      (by omega) (by omega)
    rw [hstep]
    have hd : r.ts + r.dur - r.ts = r.dur := by omega
    rw [hd, emitRow_addEn]
  have hC : ∀ p ∈ consecPairs (afkPts ((afkCore c R S).map addEn) R),
      (∀ r ∈ afkCore c R S, p ≠ (r.ts, r.ts + r.dur)) →
      emitStep ((afkCore c R S).map addEn) (List.insertionSort prLe R) p = [] := by
    intro p hp hno
    obtain ⟨a, b⟩ := p
    have hablt : a < b := (consecPairs_spec _ hpts2pw _ hp).2.2.1
    apply emitStep_empty
    intro f hf hcov
    rcases List.mem_map.mp hf with ⟨w, hw, rfl⟩
    have hx1 := of_decide_eq_true (Bool.and_elim_left hcov)
    have hx2 := of_decide_eq_true (Bool.and_elim_right hcov)
    have heq := consec_unique _ hpts2pw (a, b) (w.ts, w.ts + w.dur) hp (hpairP2 w hw)
      (a + (b - a) / 2)
      ⟨by show a ≤ a + (b - a) / 2; omega, by show a + (b - a) / 2 < b; omega⟩
      ⟨hx1, hx2⟩
    exact hno w hw heq
  have hemit2 : emitAll ((afkCore c R S).map addEn) (List.insertionSort prLe R)
      (consecPairs (afkPts ((afkCore c R S).map addEn) R)) = afkCore c R S :=
    emit_exact _ _ _ _ hstrict hB hC (consecPairs_pairwise _ hpts2pw)
      (fun p hp => (consecPairs_spec _ hpts2pw p hp).2.2.1)
  rw [afkCore_eq (afkCore c R S) R S, hflat2, hemit2]
  by_cases hout : afkCore c R S = []
  · rw [if_pos hout, hout]
  · rw [if_neg hout, sysFilter]
    exact List.filter_eq_self.mpr hkeep

/-- The unqualified idempotence claim fails: the output for the
overlapping timeline `c8In` contains two identical copies over one
sub-interval, and a second pass duplicates each of them. -/
theorem c8_counterexample :
    afkCore (afkCore c8In c8R defaultSysApps) c8R defaultSysApps ≠
      afkCore c8In c8R defaultSysApps := by decide

/-- Witness for C8 at a concrete disjoint-output timeline. -/
theorem c8_afk_filter_fixed_point_witness :
    (afkCore c8WIn c8R defaultSysApps).Pairwise disjT ∧
      afkCore (afkCore c8WIn c8R defaultSysApps) c8R defaultSysApps =
        afkCore c8WIn c8R defaultSysApps :=
  ⟨by decide, c8_afk_filter_fixed_point c8WIn c8R defaultSysApps (by decide)⟩

end AwDaily
